import Mathlib

/-!
# Verification of the parley greedy line breaker and style builders

This file gives a shallow embedding of the core of the `parley` rich-text
layout engine — the greedy line breaker (`src/layout/line/greedy.rs`), the
line finalizer with bidi reorder and justification, and the tree style
builder (`src/resolve/tree.rs`) — and proves properties of the embedding.

Modelling conventions:
* `f32` values are modelled as exact rationals (`ℚ`); `f32::INFINITY` is
  modelled by a rational above `f32::MAX`, and finiteness checks compare
  against the modelled `f32::MAX`.
* `usize` values are `ℕ`; where the Rust code can overflow or panic
  (slice indexing, `unwrap`, `expect`), the embedding returns `Option`
  and `none` models the panic.
* Vectors are Lean lists; in-place mutation becomes explicit state passing.
* Rust `a..b` ranges become the `NRange` structure below (field `stop`
  stands for Rust's `end`, which is a Lean keyword).
-/

set_option maxRecDepth 4000

/- `decide`-style evaluation of concrete breaker runs needs the rational
operations to unfold during elaboration (the kernel unfolds them anyway). -/
set_option allowUnsafeReducibility true
attribute [local semireducible] Rat.add Rat.mul Rat.inv Rat.sub Rat.neg Rat.div

namespace Parley

/-- Half-open index range `[start, stop)`, Rust's `Range<usize>`. -/
structure NRange where
  start : Nat
  stop : Nat
deriving DecidableEq, Repr

instance : Inhabited NRange := ⟨⟨0, 0⟩⟩

/-- `Range::len()` as used on iterators of `Range<usize>`: zero when reversed. -/
def NRange.len (r : NRange) : Nat := r.stop - r.start

/-- `Range::is_empty()`. -/
def NRange.isEmpty (r : NRange) : Bool := decide (r.stop ≤ r.start)

/-- Boundary class of a cluster, from the text analyzer
(`Boundary` in the analysis crate; the spec lists `None`, `Line`,
`Mandatory`, others ignored — `word` stands for the ignored others). -/
inductive Boundary where
  | bNone
  | word
  | line
  | mandatory
deriving DecidableEq, Repr

/-- Whitespace class of a cluster. Modelled from the spec: the analyzer
yields a whitespace class (space / nbsp / other whitespace / none);
`is_space_or_nbsp` is true for space and nbsp, `is_whitespace` for
everything except `none`. -/
inductive Whitespace where
  | wsNone
  | space
  | noBreakSpace
  | otherWs
deriving DecidableEq, Repr

/-- `Whitespace::is_space_or_nbsp`. -/
def Whitespace.isSpaceOrNbsp : Whitespace → Bool
  | .space => true
  | .noBreakSpace => true
  | _ => false

/-- Per-cluster info: boundary class, whitespace class and ligature flags.
Modelled from the spec: `ClusterInfo` comes from the shaping crate, which is
outside the excerpt; the spec's data model lists exactly these attributes. -/
structure ClusterInfo where
  boundary : Boundary
  whitespace : Whitespace
  ligStart : Bool
  ligCont : Bool
deriving DecidableEq, Repr

/-- `ClusterInfo::is_whitespace`. -/
def ClusterInfo.isWhitespace (i : ClusterInfo) : Bool :=
  decide (i.whitespace ≠ Whitespace.wsNone)

/-- A shaped cluster as stored in `LayoutData::clusters`. -/
structure ClusterData where
  info : ClusterInfo
  advance : ℚ
  textRange : NRange
deriving DecidableEq, Repr

/-- Per-run font metrics (ascent/descent/leading). -/
structure RunMetrics where
  ascent : ℚ
  descent : ℚ
  leading : ℚ
deriving DecidableEq, Repr

instance : Inhabited RunMetrics := ⟨⟨0, 0, 0⟩⟩

/-- A shaped run as stored in `LayoutData::runs`. `lineHeight` models the
resolved style's line-height multiplier used by
`LineItemData::compute_line_height` (that function lives in the layout
module, outside the excerpt; the spec says the multiplier comes from the
item's style). -/
structure RunData where
  clusterRange : NRange
  textRange : NRange
  bidiLevel : Nat
  metrics : RunMetrics
  lineHeight : ℚ
deriving DecidableEq, Repr

/-- `BreakReason`. -/
inductive BreakReason where
  | breakNone
  | regular
  | explicit
  | emergency
deriving DecidableEq, Repr

instance : Inhabited BreakReason := ⟨.breakNone⟩

/-- `Alignment`. -/
inductive Alignment where
  | start
  | middle
  | alignEnd
  | justified
deriving DecidableEq, Repr

/-- `LayoutItemKind` (only text runs appear in the excerpt's line breaking). -/
inductive LayoutItemKind where
  | textRun
  | inlineBox
deriving DecidableEq, Repr

/-- `LineItemData`: a run slice belonging to a committed line. -/
structure LineItemData where
  kind : LayoutItemKind
  index : Nat
  bidiLevel : Nat
  isWhitespace : Bool
  hasTrailingWhitespace : Bool
  clusterRange : NRange
  textRange : NRange
  advance : ℚ
deriving DecidableEq, Repr

/-- `LineMetrics`. -/
structure LineMetrics where
  advance : ℚ
  trailingWhitespace : ℚ
  ascent : ℚ
  descent : ℚ
  leading : ℚ
  offset : ℚ
  baseline : ℚ
deriving DecidableEq, Repr

instance : Inhabited LineMetrics := ⟨⟨0, 0, 0, 0, 0, 0, 0⟩⟩

/-- `LineMetrics::size`. Modelled from the spec: the metrics' block size is
ascent + descent + leading (the definition lives in the layout module,
outside the excerpt; no claim depends on its exact value). -/
def LineMetrics.size (m : LineMetrics) : ℚ := m.ascent + m.descent + m.leading

/-- `LineData`. -/
structure LineData where
  runRange : NRange
  maxAdvance : ℚ
  alignment : Alignment
  breakReason : BreakReason
  numSpaces : Nat
  textRange : NRange
  metrics : LineMetrics
deriving DecidableEq, Repr

instance : Inhabited LineData :=
  ⟨⟨default, 0, .start, .breakNone, 0, default, default⟩⟩

/-- The slice of `LayoutData` that the line breaker reads and writes. -/
structure LayoutData where
  textLen : Nat
  runs : List RunData
  clusters : List ClusterData
  width : ℚ
  fullWidth : ℚ
  height : ℚ
deriving DecidableEq, Repr

/-- The modelled value of `f32::MAX`. -/
def F32_MAX : ℚ := (2 ^ 24 - 1) * 2 ^ 104

/-- A rational standing in for `f32::INFINITY` (any value above `F32_MAX`
behaves like it in the embedded comparisons). -/
def F32_INF : ℚ := 2 ^ 130

/-- The modelled value of `f32::EPSILON`. -/
def F32_EPSILON : ℚ := 1 / 2 ^ 23

/-- `max_advance.is_finite() && max_advance < f32::MAX` (no NaNs in the
rational model). -/
def hasFiniteWidth (ma : ℚ) : Bool := decide (-F32_MAX ≤ ma ∧ ma < F32_MAX)

/-- `Run::get(index)`: the cluster at relative index `index` within the run,
`none` when out of range. Modelled from the spec: `Run::get` lives in the
layout module outside the excerpt; `greedy.rs` calls it with the relative
index `cluster_idx - cluster_range.start`. -/
def runGet (layout : LayoutData) (run : RunData) (i : Nat) : Option ClusterData :=
  if i < run.clusterRange.len then layout.clusters[run.clusterRange.start + i]?
  else none

/-- The two vectors the breaker swaps out of the layout (`LineLayout`). -/
structure LineLayout where
  lines : List LineData
  lineItems : List LineItemData
deriving DecidableEq, Repr

instance : Inhabited LineLayout := ⟨⟨[], []⟩⟩

/-- `LineState`: the in-progress line. -/
structure LineState where
  x : ℚ
  runs : NRange
  clusters : NRange
  skipMandatoryBreak : Bool
  numSpaces : Nat
deriving DecidableEq, Repr

instance : Inhabited LineState := ⟨⟨0, default, default, false, 0⟩⟩

/-- `PrevBoundaryState`. -/
structure PrevBoundaryState where
  runIdx : Nat
  clusterIdx : Nat
  state : LineState
deriving DecidableEq, Repr

/-- `BreakerState`. -/
structure BreakerState where
  items : Nat
  lines : Nat
  runIdx : Nat
  clusterIdx : Nat
  line : LineState
  prevBoundary : Option PrevBoundaryState
deriving DecidableEq, Repr

instance : Inhabited BreakerState := ⟨⟨0, 0, 0, 0, default, none⟩⟩

/-- `BreakLines` without the layout borrow: the layout is passed to each
operation explicitly (it is read-only during breaking). -/
structure BreakLines where
  lines : LineLayout
  state : BreakerState
  prevState : Option BreakerState
  done : Bool
deriving DecidableEq, Repr

/-- The fresh breaker produced by `BreakLines::new` (the accompanying
`unjustify` and width/height reset act on the layout, see `unjustify`). -/
def initBreaker : BreakLines :=
  { lines := ⟨[], []⟩, state := default, prevState := none, done := false }

/-! ## commit_line -/

/-- The clipped cluster-range start for run `i` of a line: the line's own
start for the first run, the run's start otherwise. -/
def clipStart (state : LineState) (i : Nat) (runData : RunData) : Nat :=
  if i = 0 then state.clusters.start else runData.clusterRange.start

/-- The clipped cluster-range stop for run `i` of a line: the line's own
stop for the last run, the run's stop otherwise. -/
def clipStop (state : LineState) (lastRun i : Nat) (runData : RunData) : Nat :=
  if i = lastRun then state.clusters.stop else runData.clusterRange.stop

/-- One step of the item-building loop of `commit_line`: the clipped cluster
range and, when it is kept, the `LineItemData` pushed for run `i` of the
line. Returns `none` for the skip case and `some none` for a Rust panic. -/
def commitItem (layout : LayoutData) (state : LineState) (isEmpty : Bool)
    (lastRun : Nat) (i : Nat) (runData : RunData) : Option (Option LineItemData) :=
  let clipStart := clipStart state i runData
  let clipStop := clipStop state lastRun i runData
  -- Skip empty/invalid clusters
  if clipStart > clipStop ∨ (¬isEmpty ∧ clipStart = clipStop) then
    some none
  else
    let textRange : Option NRange :=
      if runData.clusterRange.isEmpty then some ⟨0, 0⟩
      else
        -- Rust: `cluster_range.start - run_data.cluster_range.start` underflows
        -- (panics) when the clipped start precedes the run; model with a guard.
        if clipStart < runData.clusterRange.start then none
        else
          match runGet layout runData (clipStart - runData.clusterRange.start),
              runGet layout runData ((clipStop - runData.clusterRange.start) - 1) with
          | some first, some last => some ⟨first.textRange.start, last.textRange.stop⟩
          | _, _ => none
    match textRange with
    | none => none
    | some tr =>
      some (some
        { kind := .textRun
          index := state.runs.start + i
          bidiLevel := runData.bidiLevel
          isWhitespace := false
          hasTrailingWhitespace := false
          clusterRange := ⟨clipStart, clipStop⟩
          textRange := tr
          advance := 0 })

/-- The item loop of `commit_line` over the line's run slice (`i` is the
loop index, `lastRun` the index of the line's final run). -/
def commitRuns (layout : LayoutData) (state : LineState) (lastRun : Nat) :
    Nat → List RunData → Option (List LineItemData)
  | _, [] => some []
  | i, r :: rest =>
    match commitItem layout state (decide (layout.textLen = 0)) lastRun i r with
    | none => none
    | some none => commitRuns layout state lastRun (i + 1) rest
    | some (some item) =>
      match commitRuns layout state lastRun (i + 1) rest with
      | none => none
      | some tl => some (item :: tl)

/-- The list of items `commit_line` pushes, given the already-clamped line
state; `none` models a Rust panic (reversed run range, out-of-bounds slice,
or a failed `unwrap`). -/
def commitItems (layout : LayoutData) (state : LineState) : Option (List LineItemData) :=
  if state.runs.stop < state.runs.start ∨ state.runs.stop > layout.runs.length
      ∨ state.runs.stop = state.runs.start then
    -- `layout.runs[a..b]` panics for a reversed or out-of-bounds range, and
    -- `state.runs.len() - 1` underflows for an empty one.
    if state.runs.stop = state.runs.start ∧ state.runs.stop ≤ layout.runs.length then
      some []
    else none
  else
    commitRuns layout state (state.runs.len - 1) 0
      ((layout.runs.drop state.runs.start).take state.runs.len)

/-- The clamp `state.clusters.end = state.clusters.end.min(layout.clusters.len())`
performed at the top of `commit_line`. -/
def clampState (layout : LayoutData) (state : LineState) : LineState :=
  { state with
    clusters := ⟨state.clusters.start, min state.clusters.stop layout.clusters.length⟩ }

/-- `commit_line`. Returns `none` for a Rust panic, otherwise the success
flag together with the updated `LineLayout` and `LineState` (the state is
mutated — clamped — even on failure). -/
def commitLine (layout : LayoutData) (lines : LineLayout) (state : LineState)
    (maxAdvance : ℚ) (alignment : Alignment) (breakReason : BreakReason) :
    Option (Bool × LineLayout × LineState) :=
  let state := clampState layout state
  match commitItems layout state with
  | none => none
  | some [] => some (false, lines, state)
  | some items =>
    let numSpaces :=
      if breakReason = BreakReason.regular then state.numSpaces - 1 else state.numSpaces
    let line : LineData :=
      { runRange := ⟨lines.lineItems.length, lines.lineItems.length + items.length⟩
        maxAdvance := maxAdvance
        alignment := alignment
        breakReason := breakReason
        numSpaces := numSpaces
        textRange := default
        metrics := { (default : LineMetrics) with advance := state.x } }
    let lines' : LineLayout :=
      { lines := lines.lines ++ [line], lineItems := lines.lineItems ++ items }
    let state' := { state with
      clusters := ⟨state.clusters.stop, state.clusters.stop + 1⟩
      runs := ⟨state.runs.stop - 1, state.runs.stop⟩
      numSpaces := 0 }
    some (true, lines', state')

/-! ## break_next -/

/-- `start_new_line` combined with `last_line_data`: resets the high-water
marks and `line.x`, and reads the metrics of the line just committed
(`none` models the `.unwrap()` panic on an empty line vector). -/
def startNewLine (lines : LineLayout) (st : BreakerState) :
    Option ((ℚ × ℚ) × BreakerState) :=
  match lines.lines.getLast? with
  | none => none
  | some l =>
    some ((l.metrics.advance, l.metrics.size),
      { st with
        items := lines.lineItems.length
        lines := lines.lines.length
        line := { st.line with x := 0 } })

/-- The ligature-advance sweep of `break_next`: starting at the ligature
start, accumulate the advances of following ligature continuations and move
the cluster index forward. The probe index `idx + 1` reproduces the source,
which passes `self.state.cluster_idx + 1` (a layout-global index) to
`Run::get` (which expects a run-relative index). -/
def ligSweep (layout : LayoutData) (runData : RunData) :
    Nat → Nat → ℚ → Nat × ℚ
  | 0, idx, adv => (idx, adv)
  | fuel + 1, idx, adv =>
    match runGet layout runData (idx + 1) with
    | none => (idx, adv)
    | some c =>
      if ¬c.info.ligCont then (idx, adv)
      else ligSweep layout runData fuel (idx + 1) (adv + c.advance)

/-- Result of the run/cluster loop of `break_next`: either a line was
committed and the function returned, or the loop ran out of runs. -/
inductive LoopOut where
  | committed (res : ℚ × ℚ) (st : BreakerState) (lines : LineLayout)
  | exhausted (st : BreakerState) (lines : LineLayout)
deriving DecidableEq

/-- Result of one iteration of the run/cluster loop of `break_next`:
a panic, a `return`/loop exit, or continuation with updated state. -/
inductive StepOut where
  | panic
  | ret (out : LoopOut)
  | next (st : BreakerState) (lines : LineLayout)
deriving DecidableEq

/-- The boundary handling block at the top of the cluster loop of
`break_next` (the `match boundary { ... }` statement): a `Mandatory`
boundary may commit an `Explicit` line and return (`inl`), a `Line`
boundary records `prev_boundary`; otherwise the state passes through
(`inr`); `none` models a panic inside the block. -/
def boundaryPhase (layout : LayoutData) (maxAdvance : ℚ) (alignment : Alignment)
    (st : BreakerState) (lines : LineLayout) (cluster : ClusterData)
    (isLigCont : Bool) :
    Option (Sum ((ℚ × ℚ) × BreakerState × LineLayout) (BreakerState × LineLayout)) :=
  match cluster.info.boundary with
  | .mandatory =>
    if ¬st.line.skipMandatoryBreak then
      let st1 := { st with
        prevBoundary := none
        line := { st.line with
          runs := ⟨st.line.runs.start, st.runIdx + 1⟩
          clusters := ⟨st.line.clusters.start, st.clusterIdx⟩
          skipMandatoryBreak := true } }
      match commitLine layout lines st1.line maxAdvance alignment .explicit with
      | none => none
      | some (true, lines', lstate') =>
        match startNewLine lines' { st1 with line := lstate' } with
        | none => none
        | some (res, st2) => some (.inl (res, st2, lines'))
      | some (false, lines', lstate') =>
        some (.inr ({ st1 with line := lstate' }, lines'))
    else some (.inr (st, lines))
  | .line =>
    if ¬isLigCont then
      some (.inr ({ st with
        prevBoundary := some ⟨st.runIdx, st.clusterIdx, st.line⟩ }, lines))
    else some (.inr (st, lines))
  | _ => some (.inr (st, lines))

/-- One iteration of the run/cluster loop of `break_next` (the body of
`while self.state.run_idx < run_count`, including the inner cluster
loop's condition). -/
def breakStep (layout : LayoutData) (maxAdvance : ℚ) (alignment : Alignment)
    (st : BreakerState) (lines : LineLayout) : StepOut :=
    if hrun : st.runIdx < layout.runs.length then
      let runData := layout.runs[st.runIdx]
      let clusterStart := runData.clusterRange.start
      let clusterStop := runData.clusterRange.stop
      if st.clusterIdx < clusterStop then
        match runGet layout runData (st.clusterIdx - clusterStart) with
        | none => .panic
        | some cluster =>
          let isLigCont := cluster.info.ligCont
          let isSpace := cluster.info.whitespace.isSpaceOrNbsp
          -- Handle boundary clusters: a Mandatory boundary may commit and
          -- return; otherwise the (possibly mutated) state falls through.
          match boundaryPhase layout maxAdvance alignment st lines cluster isLigCont with
          | none => .panic
          | some (.inl (res, st2, lines')) => .ret (.committed res st2 lines')
          | some (.inr (st, lines)) =>
            let st := { st with line := { st.line with skipMandatoryBreak := false } }
            -- Ligature sweep: accumulate continuation advances.
            let swept :=
              if cluster.info.ligStart then
                ligSweep layout runData (runData.clusterRange.len + 1)
                  st.clusterIdx cluster.advance
              else (st.clusterIdx, cluster.advance)
            let st := { st with clusterIdx := swept.1 }
            let advance := swept.2
            let nextX := st.line.x + advance
            if nextX ≤ maxAdvance then
              -- The cluster fits: extend the line.
              .next
                { st with
                  clusterIdx := st.clusterIdx + 1
                  line := { st.line with
                    runs := ⟨st.line.runs.start, st.runIdx + 1⟩
                    clusters := ⟨st.line.clusters.start, st.clusterIdx + 1⟩
                    x := nextX
                    numSpaces :=
                      if isSpace then st.line.numSpaces + 1 else st.line.numSpaces } }
                lines
            else if isSpace then
              -- Hang overflowing whitespace.
              let st1 := { st with
                line := { st.line with
                  runs := ⟨st.line.runs.start, st.runIdx + 1⟩
                  clusters := ⟨st.line.clusters.start, st.clusterIdx + 1⟩
                  x := nextX } }
              match commitLine layout lines st1.line maxAdvance alignment .regular with
              | none => .panic
              | some (true, lines', lstate') =>
                let st2 := { st1 with
                  line := lstate'
                  prevBoundary := none
                  clusterIdx := st1.clusterIdx + 1 }
                match startNewLine lines' st2 with
                | none => .panic
                | some (res, st3) => .ret (.committed res st3 lines')
              | some (false, lines', lstate') =>
                .next { st1 with line := lstate' } lines'
            else
              match st.prevBoundary with
              | some prev =>
                -- `take()` clears prev_boundary in every outcome below.
                let st := { st with prevBoundary := none }
                if prev.state.x = 0 then
                  -- Accept the overflowing fragment.
                  let st1 := { st with
                    clusterIdx := st.clusterIdx + 1
                    line := { st.line with
                      runs := ⟨st.line.runs.start, st.runIdx + 1⟩
                      clusters := ⟨st.line.clusters.start, st.clusterIdx + 1⟩
                      x := nextX } }
                  match commitLine layout lines st1.line maxAdvance alignment .emergency with
                  | none => .panic
                  | some (true, lines', lstate') =>
                    let st2 := { st1 with
                      line := lstate'
                      prevBoundary := none
                      clusterIdx := st1.clusterIdx + 1 }
                    match startNewLine lines' st2 with
                    | none => .panic
                    | some (res, st3) => .ret (.committed res st3 lines')
                  | some (false, lines', lstate') =>
                    .next { st1 with line := lstate' } lines'
                else
                  let st1 := { st with line := prev.state }
                  match commitLine layout lines st1.line maxAdvance alignment .regular with
                  | none => .panic
                  | some (true, lines', lstate') =>
                    let st2 := { st1 with
                      line := lstate'
                      runIdx := prev.runIdx
                      clusterIdx := prev.clusterIdx }
                    match startNewLine lines' st2 with
                    | none => .panic
                    | some (res, st3) => .ret (.committed res st3 lines')
                  | some (false, lines', lstate') =>
                    .next { st1 with line := lstate' } lines'
              | none =>
                -- Emergency line break.
                let st1 :=
                  if st.line.x = 0 then
                    { st with
                      clusterIdx := st.clusterIdx + 1
                      line := { st.line with
                        runs := ⟨st.line.runs.start, st.runIdx + 1⟩
                        clusters := ⟨st.line.clusters.start, st.clusterIdx + 1⟩
                        x := nextX } }
                  else st
                match commitLine layout lines st1.line maxAdvance alignment .emergency with
                | none => .panic
                | some (true, lines', lstate') =>
                  let st2 := { st1 with
                    line := { lstate' with x := 0 }
                    items := lines'.lineItems.length
                    lines := lines'.lines.length
                    prevBoundary := none
                    clusterIdx := st1.clusterIdx + 1 }
                  match startNewLine lines' st2 with
                  | none => .panic
                  | some (res, st3) => .ret (.committed res st3 lines')
                | some (false, lines', lstate') =>
                  .next { st1 with line := lstate' } lines'
      else
        .next { st with runIdx := st.runIdx + 1 } lines
    else
      .ret (.exhausted st lines)

/-- The run/cluster loop of `break_next`, iterating `breakStep` with
explicit fuel; `none` models a panic or non-termination of the loop. -/
def breakLoop (layout : LayoutData) (maxAdvance : ℚ) (alignment : Alignment) :
    Nat → BreakerState → LineLayout → Option LoopOut
  | 0, _, _ => none
  | fuel + 1, st, lines =>
    match breakStep layout maxAdvance alignment st lines with
    | .panic => none
    | .ret out => some out
    | .next st' lines' => breakLoop layout maxAdvance alignment fuel st' lines'

/-- Fuel sufficient for every terminating execution of the loop (between
two cluster- or run-index advances the loop revisits a cluster at most
twice; only genuinely non-terminating executions exhaust it). -/
def loopFuel (layout : LayoutData) : Nat :=
  2 * (layout.clusters.length + layout.runs.length) + 4

/-- The tail of `break_next` after the run loop is exhausted: fix up
`line.runs.end`, attempt the final commit with `BreakReason::None`, and on
success set `done` and start a new line. -/
def finishExhausted (layout : LayoutData) (maxAdvance : ℚ) (alignment : Alignment)
    (br : BreakLines) (pst : Option BreakerState) (st' : BreakerState)
    (lines' : LineLayout) : Option (ℚ × ℚ) × BreakLines :=
  let st' :=
    if st'.line.runs.stop = 0 then
      { st' with line := { st'.line with runs := ⟨st'.line.runs.start, 1⟩ } }
    else st'
  match commitLine layout lines' st'.line maxAdvance alignment .breakNone with
  | none => (none, br)
  | some (true, lines2, ls2) =>
    match startNewLine lines2 { st' with line := ls2 } with
    | none => (none, br)
    | some (res, st2) =>
      (some res, { lines := lines2, state := st2, prevState := pst, done := true })
  | some (false, lines2, ls2) =>
    (none, { lines := lines2, state := { st' with line := ls2 },
             prevState := pst, done := br.done })

/-- `break_next`. Returns the produced line's `(advance, size)` (if any)
together with the updated breaker. A panicking or non-terminating execution
is modelled as `(none, br)`: no observable result. -/
def breakNext (layout : LayoutData) (br : BreakLines) (maxAdvance : ℚ)
    (alignment : Alignment) : Option (ℚ × ℚ) × BreakLines :=
  if br.done then (none, br)
  else
    let pst := some br.state
    match breakLoop layout maxAdvance alignment (loopFuel layout) br.state br.lines with
    | none => (none, br)
    | some (.committed res st' lines') =>
      (some res, { lines := lines', state := st', prevState := pst, done := false })
    | some (.exhausted st' lines') =>
      finishExhausted layout maxAdvance alignment br pst st' lines'

/-- `revert`. -/
def revert (br : BreakLines) : Bool × BreakLines :=
  match br.prevState with
  | some state =>
    (true,
      { lines := ⟨br.lines.lines.take state.lines, br.lines.lineItems.take state.items⟩
        state := state
        prevState := none
        done := false })
  | none => (false, br)

/-! ## reorder_line_items (UAX #9 L2 within a line) -/

/-- A helper length bound used for the termination of `reorderPass`. -/
theorem dropWhile_length_le {α : Type} (p : α → Bool) (l : List α) :
    (l.dropWhile p).length ≤ l.length := by
  induction l with
  | nil => simp
  | cons x xs ih =>
    rw [List.dropWhile_cons]
    split
    · exact le_trans ih (by simp)
    · simp

/-- The first loop of `reorder_line_items`: find the max level and the min
odd level (initialised to 255, the `u8` maximum). `level % 2 ≠ 0` embeds
`level & 1 != 0`. -/
def reorderLevels (runs : List LineItemData) : Nat × Nat :=
  runs.foldl
    (fun acc run =>
      let level := run.bidiLevel
      let isOdd := level % 2 ≠ 0
      let maxLevel := if level > acc.1 then level else acc.1
      let lowestOdd := if isOdd ∧ level < acc.2 then level else acc.2
      (maxLevel, lowestOdd))
    (0, 255)

/-- One pass of the second loop of `reorder_line_items` at a given `level`:
scan from the left; at an item of level `≥ level`, reverse the maximal
contiguous segment of such items in place. The source then sets `i = end`
followed by `i += 1`, so the element at `end` — which has level `< level`
when it exists — is passed over without being examined. -/
def reorderPass (level : Nat) : List LineItemData → List LineItemData
  | [] => []
  | x :: xs =>
    if x.bidiLevel ≥ level then
      let seg := x :: xs.takeWhile (fun r => r.bidiLevel ≥ level)
      match hrest : xs.dropWhile (fun r => r.bidiLevel ≥ level) with
      | [] => seg.reverse ++ []
      | y :: ys => seg.reverse ++ (y :: reorderPass level ys)
    else x :: reorderPass level xs
termination_by l => l.length
decreasing_by
  · have hd := dropWhile_length_le (fun r : LineItemData => decide (r.bidiLevel ≥ level)) xs
    rw [hrest] at hd
    simp only [List.length_cons] at hd ⊢
    omega
  · simp

/-- The levels `(lowest_odd..=max_level).rev()`, highest first. -/
def levelsDescending (lowestOdd maxLevel : Nat) : List Nat :=
  (List.range' lowestOdd (maxLevel + 1 - lowestOdd)).reverse

/-- `reorder_line_items`. -/
def reorderLineItems (runs : List LineItemData) : List LineItemData :=
  let levels := reorderLevels runs
  (levelsDescending levels.2 levels.1).foldl (fun rs level => reorderPass level rs) runs

/-- The maximum bidi level of the items (`0` when there are none); part of
the claim-side statement of UAX #9 rule L2. -/
def specMaxLevel : List LineItemData → Nat
  | [] => 0
  | r :: rs => max r.bidiLevel (specMaxLevel rs)

/-- The minimum odd bidi level of the items, when one exists; part of the
claim-side statement of UAX #9 rule L2. -/
def specMinOdd : List LineItemData → Option Nat
  | [] => none
  | r :: rs =>
    let m := specMinOdd rs
    if r.bidiLevel % 2 = 1 then
      some (match m with | none => r.bidiLevel | some v => min r.bidiLevel v)
    else m

/-- Reverse every maximal contiguous subrun of items whose level is at
least `level` (the reversal step of UAX #9 rule L2, stated from the
claim's words). -/
def reverseMaximalSubruns (level : Nat) : List LineItemData → List LineItemData
  | [] => []
  | x :: xs =>
    if x.bidiLevel ≥ level then
      (x :: xs.takeWhile (fun r => r.bidiLevel ≥ level)).reverse ++
        reverseMaximalSubruns level (xs.dropWhile (fun r => r.bidiLevel ≥ level))
    else x :: reverseMaximalSubruns level xs
termination_by l => l.length
decreasing_by
  · have hd := dropWhile_length_le (fun r : LineItemData => decide (r.bidiLevel ≥ level)) xs
    simp only [List.length_cons]
    omega
  · simp

/-- UAX #9 rule L2 on a line's items, stated from the claim's words: for
each level from the maximum level down to the minimum odd level, reverse
every maximal contiguous subrun of items whose level is at least that
level; when no odd level exists nothing is reversed. -/
def uax9L2 (runs : List LineItemData) : List LineItemData :=
  match specMinOdd runs with
  | none => runs
  | some minOdd =>
    (levelsDescending minOdd (specMaxLevel runs)).foldl
      (fun rs level => reverseMaximalSubruns level rs) runs

/-! ## finish (trailing whitespace and alignment) and unjustify -/

/-- The inner cluster loop of the justification arm of `finish` and of
`unjustify`: walk the clusters, adding `delta` to the advance of each
space-or-nbsp cluster, stopping once `numSpaces` adjustments have been
applied (`applied` counts those made in earlier items of the same line;
`finish` passes `+adjustment`, `unjustify` passes `-adjustment`). -/
def adjustRun (numSpaces : Nat) (delta : ℚ) :
    Nat → List ClusterData → List ClusterData × Nat
  | applied, [] => ([], applied)
  | applied, c :: cs =>
    if applied = numSpaces then (c :: cs, applied)
    else if c.info.whitespace.isSpaceOrNbsp then
      let out := adjustRun numSpaces delta (applied + 1) cs
      ({ c with advance := c.advance + delta } :: out.1, out.2)
    else
      let out := adjustRun numSpaces delta applied cs
      (c :: out.1, out.2)

/-- Per-line-item step of the same loops: slice the item's cluster range
out of the cluster vector, walk it forwards for even bidi levels and
backwards for odd ones, and splice the result back. -/
def adjustItem (numSpaces : Nat) (delta : ℚ) (acc : List ClusterData × Nat)
    (item : LineItemData) : List ClusterData × Nat :=
  let clusters := acc.1
  let slice := (clusters.drop item.clusterRange.start).take item.clusterRange.len
  let out :=
    if item.bidiLevel % 2 ≠ 0 then
      let r := adjustRun numSpaces delta acc.2 slice.reverse
      (r.1.reverse, r.2)
    else adjustRun numSpaces delta acc.2 slice
  (clusters.take item.clusterRange.start ++ out.1 ++
      clusters.drop item.clusterRange.stop,
    out.2)

/-- The shared iteration pattern of `Alignment::Justified` in `finish` and
of `unjustify`: apply `delta` to the first `numSpaces` space clusters of
the line, iterating the line's items in order. -/
def adjustLineClusters (clusters : List ClusterData) (lineItems : List LineItemData)
    (line : LineData) (delta : ℚ) : List ClusterData :=
  (((lineItems.drop line.runRange.start).take line.runRange.len).foldl
    (adjustItem line.numSpaces delta) (clusters, 0)).1

/-- The `Compute size of line's trailing whitespace` block of `finish`:
the advance of the last cluster of the line's last item when that cluster
is a space or nbsp; `none` models the indexing panics. -/
def lineTrailingWhitespace (clusters : List ClusterData)
    (lineItems : List LineItemData) (line : LineData) : Option ℚ :=
  if ¬line.runRange.isEmpty then
    match lineItems[line.runRange.stop - 1]? with
    | none => none
    | some lastRun =>
      if ¬lastRun.clusterRange.isEmpty then
        match clusters[lastRun.clusterRange.stop - 1]? with
        | none => none
        | some cluster =>
          if cluster.info.whitespace.isSpaceOrNbsp then some cluster.advance
          else some 0
      else some 0
  else some 0

/-- The parts of one `finish` line iteration that touch cluster advances
or the fields `unjustify` later reads: detect mixed bidi levels, reorder
the line's items when required, compute and store the trailing whitespace,
and apply alignment — `Justified` adds `free_space / num_spaces` to the
line's first `num_spaces` space clusters, only under the `free_space > 0`
guard. The block-axis metric pass and the whitespace-flags pass read and
write neither cluster advances nor these fields and are not modelled here.
`none` models an indexing panic. -/
def finishLinePass (clusters : List ClusterData) (lineItems : List LineItemData)
    (line : LineData) : Option (List ClusterData × List LineItemData × LineData) :=
  let runBase := line.runRange.start
  let runCount := line.runRange.stop - runBase
  let slice := (lineItems.drop runBase).take runCount
  let needsReorder := slice.any (fun it => it.bidiLevel ≠ 0)
  let lineItems :=
    if needsReorder ∧ runCount > 1 then
      lineItems.take runBase ++ reorderLineItems slice ++
        lineItems.drop line.runRange.stop
    else lineItems
  match lineTrailingWhitespace clusters lineItems line with
  | none => none
  | some tw =>
    let line := { line with
      metrics := { line.metrics with trailingWhitespace := tw } }
    if hasFiniteWidth line.maxAdvance then
      let freeSpace := line.maxAdvance - line.metrics.advance + tw
      if freeSpace > 0 then
        match line.alignment with
        | .start => some (clusters, lineItems, line)
        | .alignEnd =>
          some (clusters, lineItems,
            { line with metrics := { line.metrics with offset := freeSpace } })
        | .middle =>
          some (clusters, lineItems,
            { line with metrics := { line.metrics with offset := freeSpace / 2 } })
        | .justified =>
          if line.breakReason ≠ .breakNone ∧ line.numSpaces ≠ 0 then
            let adjustment := freeSpace / (line.numSpaces : ℚ)
            some (adjustLineClusters clusters lineItems line adjustment,
              lineItems, line)
          else some (clusters, lineItems, line)
      else some (clusters, lineItems, line)
    else some (clusters, lineItems, line)

/-- The per-line loop of `finish` (the modelled parts), threading the
cluster and item vectors through every line. -/
def finishLines (clusters : List ClusterData) (lineItems : List LineItemData) :
    List LineData → Option (List ClusterData × List LineItemData × List LineData)
  | [] => some (clusters, lineItems, [])
  | l :: ls =>
    match finishLinePass clusters lineItems l with
    | none => none
    | some (cs, its, l2) =>
      match finishLines cs its ls with
      | none => none
      | some (cs2, its2, ls2) => some (cs2, its2, l2 :: ls2)

/-- `unjustify` for one line: the same guards as the justification arm of
`finish` except the `free_space > 0` test, and the same iteration pattern
with the adjustment subtracted. -/
def unjustifyLine (clusters : List ClusterData) (lineItems : List LineItemData)
    (line : LineData) : List ClusterData :=
  if line.alignment = .justified ∧ hasFiniteWidth line.maxAdvance then
    let extra := line.maxAdvance - line.metrics.advance
      + line.metrics.trailingWhitespace
    if line.breakReason ≠ .breakNone ∧ line.numSpaces ≠ 0 then
      adjustLineClusters clusters lineItems line (-(extra / (line.numSpaces : ℚ)))
    else clusters
  else clusters

/-- `unjustify`: remove the previous justification from every line. -/
def unjustify (clusters : List ClusterData) (lineItems : List LineItemData)
    (lines : List LineData) : List ClusterData :=
  lines.foldl (fun cs l => unjustifyLine cs lineItems l) clusters

/-! ## Layout well-formedness and breaker invariants (for the width bound) -/

/-- The ranges `rs` tile `[a, b)`: contiguous, each nonempty, in order,
jointly covering exactly `[a, b)`. -/
def rangesChain (a : Nat) : List NRange → Nat → Bool
  | [], b => decide (a = b)
  | r :: rs, b => decide (r.start = a) && decide (a < r.stop) && rangesChain r.stop rs b

/-- The runs are nonempty and consecutively tile the cluster indices
starting at `start`. -/
def runsConsecutive : Nat → List RunData → Bool
  | _, [] => true
  | start, r :: rs =>
    decide (r.clusterRange.start = start) &&
    decide (r.clusterRange.start < r.clusterRange.stop) &&
    runsConsecutive r.clusterRange.stop rs

/-- The cluster index where the run list ends (the last run's
`cluster_range.end`, or `s` when there are no runs). -/
def runsFinal (s : Nat) : List RunData → Nat
  | [] => s
  | r :: rs => runsFinal r.clusterRange.stop rs

/-- Well-formedness of a layout as produced by shaping: nonempty text,
nonempty runs consecutively tiling `[0, clusters.length)`, non-negative
cluster advances, and no space/nbsp cluster beginning a ligature. -/
def wfLayout (layout : LayoutData) : Bool :=
  decide (layout.textLen ≠ 0) &&
  runsConsecutive 0 layout.runs &&
  decide (runsFinal 0 layout.runs = layout.clusters.length) &&
  layout.clusters.all (fun c =>
    decide (0 ≤ c.advance) &&
    !(c.info.whitespace.isSpaceOrNbsp && c.info.ligStart))

/-- The geometric invariant tying a cursor position `(ri, ci)` to an
in-progress line state. -/
def coreInv (layout : LayoutData) (ri ci : Nat) (ls : LineState) : Prop :=
  0 ≤ ls.x ∧
  ls.clusters.start ≤ ci ∧
  ls.clusters.stop ≤ ci + 1 ∧
  ls.runs.start ≤ ri ∧
  ls.runs.stop ≤ ri + 1 ∧
  (∀ r, layout.runs[ri]? = some r → r.clusterRange.start ≤ ci) ∧
  (ls.x ≠ 0 →
    ls.clusters.start < ls.clusters.stop ∧
    ls.clusters.stop ≤ ci ∧
    ls.clusters.stop ≤ layout.clusters.length ∧
    ls.runs.start < ls.runs.stop)

/-- The width property of a committed line: either the break was an
emergency, or the full advance fits, or (hanging whitespace) the line's
final cluster is a space whose advance accounts for the overflow. The
final cluster is found exactly as the finish pass finds the trailing
whitespace: last cluster of the line's last item. -/
def lineProp (layout : LayoutData) (items : List LineItemData)
    (l : LineData) : Prop :=
  0 ≤ l.maxAdvance →
    l.breakReason = .emergency ∨
    l.metrics.advance ≤ l.maxAdvance ∨
    ∃ it c, items[l.runRange.stop - 1]? = some it ∧
      layout.clusters[it.clusterRange.stop - 1]? = some c ∧
      c.info.whitespace.isSpaceOrNbsp = true ∧
      l.metrics.advance - c.advance ≤ l.maxAdvance

/-- Invariant of the accumulated line vectors: the lines' run ranges tile
the item vector, items hold nonempty in-bounds cluster ranges, and every
line satisfies the width property. -/
def linesInv (layout : LayoutData) (lines : LineLayout) : Prop :=
  rangesChain 0 (lines.lines.map LineData.runRange)
    lines.lineItems.length = true ∧
  (∀ it ∈ lines.lineItems, it.clusterRange.start < it.clusterRange.stop ∧
    it.clusterRange.stop ≤ layout.clusters.length) ∧
  (∀ l ∈ lines.lines, lineProp layout lines.lineItems l)

/-- The invariant carried through the run/cluster loop of one `break_next`
call with `max_advance = ma`. -/
def loopInv (layout : LayoutData) (ma : ℚ) (st : BreakerState)
    (lines : LineLayout) : Prop :=
  coreInv layout st.runIdx st.clusterIdx st.line ∧
  (0 ≤ ma → st.line.x ≤ ma) ∧
  (∀ p, st.prevBoundary = some p →
    coreInv layout p.runIdx p.clusterIdx p.state ∧
    p.state.x ≤ st.line.x ∧ (0 ≤ ma → p.state.x ≤ ma)) ∧
  linesInv layout lines ∧
  st.items = lines.lineItems.length ∧
  st.lines = lines.lines.length

/-- The state facts holding when the loop returns a committed line. -/
def exitInv (layout : LayoutData) (st : BreakerState)
    (lines : LineLayout) : Prop :=
  st.line.x = 0 ∧
  coreInv layout st.runIdx st.clusterIdx st.line ∧
  st.prevBoundary = none ∧
  linesInv layout lines ∧
  st.items = lines.lineItems.length ∧
  st.lines = lines.lines.length

/-- Invariant facts per `breakStep` outcome. -/
def stepInv (layout : LayoutData) (ma : ℚ) (st : BreakerState)
    (lines : LineLayout) : StepOut → Prop
  | .panic => True
  | .next st2 lines2 => loopInv layout ma st2 lines2
  | .ret (.committed _ st2 lines2) => exitInv layout st2 lines2
  | .ret (.exhausted st2 lines2) => st2 = st ∧ lines2 = lines

/-- Invariant facts per loop outcome. -/
def loopOutInv (layout : LayoutData) (ma : ℚ) : LoopOut → Prop
  | .committed _ st2 lines2 => exitInv layout st2 lines2
  | .exhausted st2 lines2 => loopInv layout ma st2 lines2

/-- The facts recorded about the snapshot stored in `prev_state`. -/
def snapFacts (layout : LayoutData) (lines : LineLayout)
    (ps : BreakerState) : Prop :=
  ps.line.x = 0 ∧
  coreInv layout ps.runIdx ps.clusterIdx ps.line ∧
  (∀ p, ps.prevBoundary = some p →
    coreInv layout p.runIdx p.clusterIdx p.state ∧
    p.state.x ≤ ps.line.x) ∧
  ps.items ≤ lines.lineItems.length ∧
  ps.lines ≤ lines.lines.length ∧
  rangesChain 0 ((lines.lines.take ps.lines).map LineData.runRange)
    ps.items = true

/-- The invariant of every breaker the API can produce. -/
def breakerInv (layout : LayoutData) (br : BreakLines) : Prop :=
  (br.done = false →
    br.state.line.x = 0 ∧
    coreInv layout br.state.runIdx br.state.clusterIdx br.state.line ∧
    (∀ p, br.state.prevBoundary = some p →
      coreInv layout p.runIdx p.clusterIdx p.state ∧
      p.state.x ≤ br.state.line.x) ∧
    br.state.items = br.lines.lineItems.length ∧
    br.state.lines = br.lines.lines.length) ∧
  linesInv layout br.lines ∧
  (∀ ps, br.prevState = some ps → snapFacts layout br.lines ps)

/-- The breakers reachable through the public API: the fresh breaker,
`break_next` with any arguments, and `revert`. -/
inductive Reach (layout : LayoutData) : BreakLines → Prop
  | init : Reach layout initBreaker
  | step {br : BreakLines} (ma : ℚ) (al : Alignment) :
      Reach layout br → Reach layout (breakNext layout br ma al).2
  | undo {br : BreakLines} :
      Reach layout br → Reach layout (revert br).2

/-- A line whose item slice needs no bidi reordering in `finish`: a single
item, or all items at level zero. -/
def noReorderLine (items : List LineItemData) (l : LineData) : Prop :=
  ¬(((items.drop l.runRange.start).take l.runRange.len).any
      (fun it => it.bidiLevel ≠ 0) = true ∧ l.runRange.stop - l.runRange.start > 1)

/-! ## Tree style builder (resolve/tree.rs) -/

/-- `usize::MAX`, the sentinel for a builder that has not been begun. -/
def USIZE_MAX : Nat := 2 ^ 64 - 1

/-- `RangedStyle` over an abstract resolved-style type `S`. -/
structure RangedStyle (S : Type) where
  style : S
  range : NRange
deriving DecidableEq

/-- `StyleTreeNodeData`. -/
inductive StyleTreeNodeData (S : Type) where
  | span (style : S)
  | text (textRange : NRange)
deriving DecidableEq

/-- `StyleTreeNode`. -/
structure StyleTreeNode (S : Type) where
  parent : Option Nat
  data : StyleTreeNodeData S
deriving DecidableEq

/-- `TreeStyleBuilder`. The resolved-style type is abstract: the builder
only clones and stores styles. -/
structure TreeStyleBuilder (S : Type) where
  tree : List (StyleTreeNode S)
  flattedStyles : List (RangedStyle S)
  currentSpan : Nat
  totalTextLen : Nat
  textLastPushedAt : Nat
deriving DecidableEq

/-- The `Default` impl. -/
instance {S : Type} : Inhabited (TreeStyleBuilder S) :=
  ⟨⟨[], [], USIZE_MAX, USIZE_MAX, 0⟩⟩

/-- `current_style`: `none` models the panics of indexing out of bounds and
of `as_span().unwrap()` on a text node. -/
def TreeStyleBuilder.currentStyle {S : Type} (b : TreeStyleBuilder S) : Option S :=
  match b.tree[b.currentSpan]? with
  | some node =>
    match node.data with
    | .span style => some style
    | .text _ => none
  | none => none

/-- `begin`. -/
def TreeStyleBuilder.begin {S : Type} (b : TreeStyleBuilder S) (rootStyle : S) :
    TreeStyleBuilder S :=
  { b with
    tree := [⟨none, .span rootStyle⟩]
    flattedStyles := []
    currentSpan := 0
    totalTextLen := 0
    textLastPushedAt := 0 }

/-- The flattening snippet repeated in `push_style_span`,
`push_style_modification_span`, `pop_style_span` and `finish`: if
`total_text_len > text_last_pushed_at`, emit a `RangedStyle` over
`[text_last_pushed_at, total_text_len)` carrying the current style. -/
def TreeStyleBuilder.flushText {S : Type} (b : TreeStyleBuilder S) :
    Option (TreeStyleBuilder S) :=
  if b.totalTextLen > b.textLastPushedAt then
    match b.currentStyle with
    | none => none
    | some style =>
      some { b with
        flattedStyles :=
          b.flattedStyles ++ [⟨style, ⟨b.textLastPushedAt, b.totalTextLen⟩⟩]
        textLastPushedAt := b.totalTextLen }
  else some b

/-- `push_style_span`. -/
def TreeStyleBuilder.pushStyleSpan {S : Type} (b : TreeStyleBuilder S) (style : S) :
    Option (TreeStyleBuilder S) :=
  match b.flushText with
  | none => none
  | some b =>
    some { b with
      tree := b.tree ++ [⟨some b.currentSpan, .span style⟩]
      currentSpan := b.tree.length }

/-- `push_style_modification_span`: the new style is the current style with
each property applied (`applyProp` stands for `ResolvedStyle::apply`, which
lives in the resolve module outside the excerpt). -/
def TreeStyleBuilder.pushStyleModificationSpan {S P : Type} (applyProp : S → P → S)
    (b : TreeStyleBuilder S) (properties : List P) : Option (TreeStyleBuilder S) :=
  match b.currentStyle with
  | none => none
  | some cur =>
    let newStyle := properties.foldl applyProp cur
    match b.flushText with
    | none => none
    | some b =>
      some { b with
        tree := b.tree ++ [⟨some b.currentSpan, .span newStyle⟩]
        currentSpan := b.tree.length }

/-- `pop_style_span`: `none` models the `expect("Popped root style")`
panic (and the indexing panic on an invalid cursor). -/
def TreeStyleBuilder.popStyleSpan {S : Type} (b : TreeStyleBuilder S) :
    Option (TreeStyleBuilder S) :=
  match b.flushText with
  | none => none
  | some b =>
    match b.tree[b.currentSpan]? with
    | none => none
    | some node =>
      match node.parent with
      | none => none
      | some p => some { b with currentSpan := p }

/-- `push_text`. `usize` addition wraps modulo `2^64` (release mode). -/
def TreeStyleBuilder.pushText {S : Type} (b : TreeStyleBuilder S) (len : Nat) :
    TreeStyleBuilder S :=
  if len = 0 then b
  else
    let start := b.totalTextLen
    let stop := (b.totalTextLen + len) % 2 ^ 64
    { b with
      tree := b.tree ++ [⟨some b.currentSpan, .text ⟨start, stop⟩⟩]
      totalTextLen := stop }

/-- The `while let Some(_) = self.tree[self.current_span].parent` pop loop
of `finish`, with fuel (`none` models a panic or a cyclic parent chain). -/
def TreeStyleBuilder.finishPops {S : Type} :
    Nat → TreeStyleBuilder S → Option (TreeStyleBuilder S)
  | 0, _ => none
  | fuel + 1, b =>
    match b.tree[b.currentSpan]? with
    | none => none
    | some node =>
      match node.parent with
      | none => some b
      | some _ =>
        match b.popStyleSpan with
        | none => none
        | some b2 => TreeStyleBuilder.finishPops fuel b2

/-- `finish`: takes and returns the caller's `styles` vector together with
the updated builder. -/
def TreeStyleBuilder.finish {S : Type} (b : TreeStyleBuilder S)
    (styles : List (RangedStyle S)) :
    Option (TreeStyleBuilder S × List (RangedStyle S)) :=
  if b.totalTextLen = USIZE_MAX then
    some ({ b with currentSpan := USIZE_MAX, tree := [] }, styles)
  else
    match TreeStyleBuilder.finishPops (b.tree.length + 1) b with
    | none => none
    | some b =>
      match b.flushText with
      | none => none
      | some b => some (b, b.flattedStyles)

/-! ## Tree builder call sequences -/

/-- A builder call after `begin`. -/
inductive TOp (S P : Type) where
  | pushSpan (style : S)
  | pushMod (props : List P)
  | popSpan
  | pushTextOp (len : Nat)

/-- Run one call. -/
def runOp {S P : Type} (applyProp : S → P → S) (b : TreeStyleBuilder S) :
    TOp S P → Option (TreeStyleBuilder S)
  | .pushSpan s => b.pushStyleSpan s
  | .pushMod ps => TreeStyleBuilder.pushStyleModificationSpan applyProp b ps
  | .popSpan => b.popStyleSpan
  | .pushTextOp n => some (b.pushText n)

/-- Run a call sequence; `none` models a panic in any call. -/
def runOps {S P : Type} (applyProp : S → P → S) (b : TreeStyleBuilder S) :
    List (TOp S P) → Option (TreeStyleBuilder S)
  | [] => some b
  | op :: ops =>
    match runOp applyProp b op with
    | none => none
    | some b2 => runOps applyProp b2 ops

/-- Number of span-opening calls. -/
def spanPushes {S P : Type} : List (TOp S P) → Nat
  | [] => 0
  | .pushSpan _ :: ops => spanPushes ops + 1
  | .pushMod _ :: ops => spanPushes ops + 1
  | _ :: ops => spanPushes ops

/-- Number of `pop_style_span` calls. -/
def spanPops {S P : Type} : List (TOp S P) → Nat
  | [] => 0
  | .popSpan :: ops => spanPops ops + 1
  | _ :: ops => spanPops ops

/-- Total text length pushed. -/
def textTotal {S P : Type} : List (TOp S P) → Nat
  | [] => 0
  | .pushTextOp n :: ops => n + textTotal ops
  | _ :: ops => textTotal ops

/-- Every prefix closes at most as many spans as it opened, starting from
`d` open spans. -/
def prefixPopsOk {S P : Type} : List (TOp S P) → Nat → Bool
  | [], _ => true
  | .popSpan :: ops, d => decide (0 < d) && prefixPopsOk ops (d - 1)
  | .pushSpan _ :: ops, d => prefixPopsOk ops (d + 1)
  | .pushMod _ :: ops, d => prefixPopsOk ops (d + 1)
  | .pushTextOp _ :: ops, d => prefixPopsOk ops d

/-- A balanced call sequence: prefix-safe and every span closed. -/
def balancedOps {S P : Type} (ops : List (TOp S P)) : Bool :=
  prefixPopsOk ops 0 && decide (spanPops ops = spanPushes ops)

/-- The cursor points at a span node whose parent chain has length `d` and
ends at a root span. -/
inductive ValidChain {S : Type} (tree : List (StyleTreeNode S)) : Nat → Nat → Prop
  | root {i : Nat} {style : S} :
      tree[i]? = some ⟨none, .span style⟩ → ValidChain tree i 0
  | child {i p d : Nat} {style : S} :
      tree[i]? = some ⟨some p, .span style⟩ → ValidChain tree p d →
      ValidChain tree i (d + 1)

/-- The invariant maintained by every tree-builder call after `begin`. -/
@[reducible] def GoodState {S : Type} (b : TreeStyleBuilder S) (d : Nat) : Prop :=
  ValidChain b.tree b.currentSpan d ∧
  b.textLastPushedAt ≤ b.totalTextLen ∧
  rangesChain 0 (b.flattedStyles.map RangedStyle.range) b.textLastPushedAt = true

/-! ## Facts predicates used by the loop lemmas -/

/-- Facts holding of a loop iteration that committed a line: exactly one
line and a nonempty item batch were appended, and the returned state has
its high-water marks set to the new lengths, `line.x = 0`, and no stored
boundary. -/
def committedFacts (lines : LineLayout) (st' : BreakerState)
    (lines' : LineLayout) : Prop :=
  (∃ l δ, δ ≠ [] ∧ lines'.lines = lines.lines ++ [l] ∧
    lines'.lineItems = lines.lineItems ++ δ) ∧
  st'.items = lines'.lineItems.length ∧ st'.lines = lines'.lines.length ∧
  st'.line.x = 0 ∧ st'.prevBoundary = none

/-- Facts about the result of `boundaryPhase`. -/
def bpFacts (lines : LineLayout) :
    Option (Sum ((ℚ × ℚ) × BreakerState × LineLayout)
      (BreakerState × LineLayout)) → Prop
  | none => True
  | some (.inl (_, st2, lines')) => committedFacts lines st2 lines'
  | some (.inr (_, lines1)) => lines1 = lines

/-- Facts about the result of `finishExhausted` when it produces a line. -/
def finishFacts (lines' : LineLayout) (pst : Option BreakerState) :
    Option (ℚ × ℚ) × BreakLines → Prop
  | (none, _) => True
  | (some _, br2) =>
    ∃ lines2 st2 l δ, δ ≠ [] ∧
      br2 = ⟨lines2, st2, pst, true⟩ ∧
      lines2.lines = lines'.lines ++ [l] ∧
      lines2.lineItems = lines'.lineItems ++ δ ∧
      st2.items = lines2.lineItems.length ∧ st2.lines = lines2.lines.length

/-- Facts about the result of `breakStep`. -/
def stepFacts (st : BreakerState) (lines : LineLayout) : StepOut → Prop
  | .panic => True
  | .next _ lines' => lines' = lines
  | .ret (.exhausted st' lines') => st' = st ∧ lines' = lines
  | .ret (.committed _ st' lines') => committedFacts lines st' lines'

/-! ## Concrete example layouts -/

/-- A cluster with the given boundary class, whitespace class, advance and
text range. -/
def mkCluster (b : Boundary) (w : Whitespace) (a : ℚ) (ts te : Nat) : ClusterData :=
  ⟨⟨b, w, false, false⟩, a, ⟨ts, te⟩⟩

/-- A single LTR run covering clusters `[0, n)` with trivial metrics. -/
def mkRun (n : Nat) : RunData := ⟨⟨0, n⟩, ⟨0, n⟩, 0, default, 1⟩

/-- Three break-class-free clusters of advance 10 in one run; with
`max_advance = 5` the first cluster triggers the no-`prev_boundary`
emergency branch at `line.x == 0`. -/
def layoutEmergencyA : LayoutData :=
  { textLen := 3
    runs := [mkRun 3]
    clusters := [mkCluster .bNone .wsNone 10 0 1, mkCluster .bNone .wsNone 10 1 2,
                 mkCluster .bNone .wsNone 10 2 3]
    width := 0, fullWidth := 0, height := 0 }

/-- As `layoutEmergencyA` but the first cluster carries a `Line` boundary,
so the stored-`prev_boundary`-at-`x == 0` emergency branch fires instead. -/
def layoutEmergencyB : LayoutData :=
  { textLen := 3
    runs := [mkRun 3]
    clusters := [mkCluster .line .wsNone 10 0 1, mkCluster .bNone .wsNone 10 1 2,
                 mkCluster .bNone .wsNone 10 2 3]
    width := 0, fullWidth := 0, height := 0 }

/-- The cluster stream of `"a\n\nb"`: two consecutive `Mandatory` clusters. -/
def layoutMandatoryPair : LayoutData :=
  { textLen := 4
    runs := [mkRun 4]
    clusters := [mkCluster .bNone .wsNone 1 0 1, mkCluster .mandatory .otherWs 1 1 2,
                 mkCluster .mandatory .otherWs 1 2 3, mkCluster .bNone .wsNone 1 3 4]
    width := 0, fullWidth := 0, height := 0 }

/-- One-cluster, one-run layout used as a `commit_line` witness input. -/
def layoutOneCluster : LayoutData :=
  { textLen := 1
    runs := [mkRun 1]
    clusters := [mkCluster .bNone .wsNone 2 0 1]
    width := 0, fullWidth := 0, height := 0 }

/-- A line state holding the single cluster of `layoutOneCluster`, with
three counted spaces. -/
def oneClusterLineState : LineState := ⟨2, ⟨0, 1⟩, ⟨0, 1⟩, false, 3⟩

/-- A line item with only a bidi level, for the reorder examples. -/
def mkItem (lvl : Nat) : LineItemData :=
  ⟨.textRun, 0, lvl, false, false, ⟨0, 0⟩, ⟨0, 0⟩, 0⟩

/-- A small mixed-level item sequence for the reorder witness. -/
def demoItems : List LineItemData :=
  [mkItem 1, mkItem 2, mkItem 1, mkItem 0, mkItem 1]

/-- A layout whose single line is committed by the
stored-`prev_boundary`-at-`x == 0` emergency branch with one counted
space: cluster 0 (advance 4) carries a `Line` boundary recorded while the
line was empty, cluster 1 is a space (advance 2), and cluster 2
(advance 20) overflows `max_advance = 10`. -/
def layoutJustifyBug : LayoutData :=
  { textLen := 3
    runs := [mkRun 3]
    clusters := [mkCluster .line .wsNone 4 0 1, mkCluster .bNone .space 2 1 2,
                 mkCluster .bNone .wsNone 20 2 3]
    width := 0, fullWidth := 0, height := 0 }

/-- The breaker after one `break_next` call on `layoutJustifyBug` with
`max_advance = 10` and `Justified` alignment: a single emergency line of
advance 26 holding all three clusters, with one counted space. -/
def justifyBugBroken : BreakLines :=
  (breakNext layoutJustifyBug initBreaker 10 .justified).2

/-- The cluster/item/line vectors after the modelled `finish` passes. -/
def justifyBugFinished :
    Option (List ClusterData × List LineItemData × List LineData) :=
  finishLines layoutJustifyBug.clusters justifyBugBroken.lines.lineItems
    justifyBugBroken.lines.lines

/-- The cluster vector after `finish` and then `unjustify`. -/
def justifyBugAfter : Option (List ClusterData) :=
  justifyBugFinished.map (fun out => unjustify out.1 out.2.1 out.2.2)

/-- Two single-cluster RTL runs (bidi level 1): a non-space of advance 6
and a space of advance 6; with `max_advance = 8` the space hangs and the
line is committed `Regular` with advance 12, then `finish` reorders the
two items so the physically-last cluster is the non-space. -/
def layoutC3Reorder : LayoutData :=
  { textLen := 2
    runs := [⟨⟨0, 1⟩, ⟨0, 1⟩, 1, default, 1⟩, ⟨⟨1, 2⟩, ⟨1, 2⟩, 1, default, 1⟩]
    clusters := [mkCluster .bNone .wsNone 6 0 1, mkCluster .bNone .space 6 1 2]
    width := 0, fullWidth := 0, height := 0 }

/-- The single line of `layoutC3Reorder` after one `break_next` with
`max_advance = 8` and the `finish` passes. -/
def c3ReorderFinished :
    Option (List ClusterData × List LineItemData × List LineData) :=
  finishLines layoutC3Reorder.clusters
    (breakNext layoutC3Reorder initBreaker 8 .start).2.lines.lineItems
    (breakNext layoutC3Reorder initBreaker 8 .start).2.lines.lines

/-- A single space cluster of advance 5 in one LTR run; with
`max_advance = -1` (a finite value) the space hangs and the line is
committed `Regular` with advance 5 and trailing whitespace 5. -/
def layoutC3Neg : LayoutData :=
  { textLen := 1
    runs := [mkRun 1]
    clusters := [mkCluster .bNone .space 5 0 1]
    width := 0, fullWidth := 0, height := 0 }

/-- The single line of `layoutC3Neg` after one `break_next` with
`max_advance = -1` and the `finish` passes. -/
def c3NegFinished :
    Option (List ClusterData × List LineItemData × List LineData) :=
  finishLines layoutC3Neg.clusters
    (breakNext layoutC3Neg initBreaker (-1) .start).2.lines.lineItems
    (breakNext layoutC3Neg initBreaker (-1) .start).2.lines.lines

/-- The first line item the breaker produces on `layoutC3Reorder`. -/
def c3I0 : LineItemData :=
  { kind := .textRun, index := 0, bidiLevel := 1, isWhitespace := false,
    hasTrailingWhitespace := false, clusterRange := ⟨0, 1⟩,
    textRange := ⟨0, 1⟩, advance := 0 }

/-- The second line item the breaker produces on `layoutC3Reorder`. -/
def c3I1 : LineItemData :=
  { kind := .textRun, index := 1, bidiLevel := 1, isWhitespace := false,
    hasTrailingWhitespace := false, clusterRange := ⟨1, 2⟩,
    textRange := ⟨1, 2⟩, advance := 0 }

/-- The line the breaker produces on `layoutC3Reorder` with
`max_advance = 8`. -/
def c3L : LineData :=
  { runRange := ⟨0, 2⟩, maxAdvance := 8, alignment := .start,
    breakReason := .regular, numSpaces := 0, textRange := ⟨0, 0⟩,
    metrics := { advance := 12, trailingWhitespace := 0, ascent := 0,
                 descent := 0, leading := 0, offset := 0, baseline := 0 } }

/-! # Theorems -/

/-- **C1** (evaluation at the failing input). The claim says the cluster
cursor ends exactly one past the just-committed cluster after an emergency
break, in both the stored-`prev_boundary`-at-`x == 0` branch and the
no-`prev_boundary` branch. The code instead advances the cursor twice: on
both three-cluster layouts (max_advance 5, every cluster of advance 10) a
single `break_next` commits an emergency line whose items end at cluster 1,
yet leaves `cluster_idx = 2`, silently skipping cluster 1. -/
theorem C1_cursor_double_advance :
    (((breakNext layoutEmergencyA initBreaker 5 .start).2.state.clusterIdx = 2) ∧
      ((breakNext layoutEmergencyA initBreaker 5 .start).2.lines.lines.map
        LineData.breakReason = [BreakReason.emergency]) ∧
      ((breakNext layoutEmergencyA initBreaker 5 .start).2.lines.lineItems.map
        LineItemData.clusterRange = [⟨0, 1⟩])) ∧
    (((breakNext layoutEmergencyB initBreaker 5 .start).2.state.clusterIdx = 2) ∧
      ((breakNext layoutEmergencyB initBreaker 5 .start).2.lines.lines.map
        LineData.breakReason = [BreakReason.emergency]) ∧
      ((breakNext layoutEmergencyB initBreaker 5 .start).2.lines.lineItems.map
        LineItemData.clusterRange = [⟨0, 1⟩])) := by
  decide

/-- **C7**. Whenever `commit_line` succeeds, the `num_spaces` stored in the
committed `LineData` is the incoming state's `num_spaces` minus one
(saturating) when the break reason is `Regular` and the unchanged value for
every other reason, and the state's `num_spaces` is reset to zero. -/
theorem C7_commit_num_spaces (layout : LayoutData) (lines : LineLayout)
    (state : LineState) (ma : ℚ) (al : Alignment) (reason : BreakReason)
    (res : LineLayout × LineState)
    (h : commitLine layout lines state ma al reason = some (true, res)) :
    (res.1.lines.getLast?).map LineData.numSpaces =
      some (if reason = BreakReason.regular then state.numSpaces - 1
        else state.numSpaces) ∧
    res.2.numSpaces = 0 := by
  unfold commitLine at h
  simp only [] at h
  rcases hci : commitItems layout (clampState layout state) with _ | (_ | ⟨i, is⟩)
  · rw [hci] at h
    exact Option.noConfusion h
  · rw [hci] at h
    simp at h
  · rw [hci] at h
    simp only [Option.some.injEq, Prod.mk.injEq, true_and] at h
    subst h
    refine ⟨?_, rfl⟩
    show Option.map LineData.numSpaces ((lines.lines ++ [_]).getLast?) = _
    rw [List.getLast?_concat]
    rfl

/-- **C7** (witness): committing a one-cluster line with three counted
spaces and reason `Regular` stores `num_spaces = 2` and resets the state's
counter. -/
theorem C7_commit_num_spaces_witness :
    ∃ res : LineLayout × LineState,
      commitLine layoutOneCluster ⟨[], []⟩ oneClusterLineState 5 .start .regular =
        some (true, res) ∧
      ((res.1.lines.getLast?).map LineData.numSpaces = some 2 ∧
        res.2.numSpaces = 0) := by
  obtain ⟨res, hres⟩ : ∃ res,
      commitLine layoutOneCluster ⟨[], []⟩ oneClusterLineState 5 .start .regular =
        some (true, res) :=
    ⟨((commitLine layoutOneCluster ⟨[], []⟩ oneClusterLineState 5 .start .regular).get
        (by decide)).2, by decide⟩
  refine ⟨res, hres, ?_⟩
  simpa [oneClusterLineState] using
    C7_commit_num_spaces layoutOneCluster ⟨[], []⟩ oneClusterLineState 5 .start .regular
      res hres

/-! ## Lemmas about commit_line, the break loop, and revert -/

theorem commitLine_false {layout : LayoutData} {lines : LineLayout} {state : LineState}
    {ma : ℚ} {al : Alignment} {r : BreakReason} {L : LineLayout} {S : LineState}
    (h : commitLine layout lines state ma al r = some (false, L, S)) :
    L = lines ∧ S = clampState layout state := by
  unfold commitLine at h
  simp only [] at h
  rcases hci : commitItems layout (clampState layout state) with _ | (_ | ⟨i, is⟩) <;>
    rw [hci] at h
  · exact Option.noConfusion h
  · simp only [Option.some.injEq, Prod.mk.injEq, true_and] at h
    exact ⟨h.1.symm, h.2.symm⟩
  · simp at h

theorem commitLine_true {layout : LayoutData} {lines : LineLayout} {state : LineState}
    {ma : ℚ} {al : Alignment} {r : BreakReason} {L : LineLayout} {S : LineState}
    (h : commitLine layout lines state ma al r = some (true, L, S)) :
    ∃ l δ, δ ≠ [] ∧ L.lines = lines.lines ++ [l] ∧ L.lineItems = lines.lineItems ++ δ := by
  unfold commitLine at h
  simp only [] at h
  rcases hci : commitItems layout (clampState layout state) with _ | (_ | ⟨i, is⟩) <;>
    rw [hci] at h
  · exact Option.noConfusion h
  · simp at h
  · simp only [Option.some.injEq, Prod.mk.injEq, true_and] at h
    exact ⟨_, i :: is, by simp, congrArg LineLayout.lines h.1.symm,
      congrArg LineLayout.lineItems h.1.symm⟩

theorem startNewLine_spec {lines : LineLayout} {st : BreakerState} {res : ℚ × ℚ}
    {st' : BreakerState} (h : startNewLine lines st = some (res, st')) :
    st'.items = lines.lineItems.length ∧ st'.lines = lines.lines.length ∧
      st'.line.x = 0 ∧ st'.prevBoundary = st.prevBoundary ∧ st'.runIdx = st.runIdx ∧
      st'.clusterIdx = st.clusterIdx ∧ st'.line.runs = st.line.runs ∧
      st'.line.clusters = st.line.clusters ∧ st'.line.numSpaces = st.line.numSpaces := by
  unfold startNewLine at h
  rcases hg : lines.lines.getLast? with _ | l <;> rw [hg] at h
  · exact Option.noConfusion h
  · simp only [Option.some.injEq, Prod.mk.injEq] at h
    rw [← h.2]
    exact ⟨rfl, rfl, rfl, rfl, rfl, rfl, rfl, rfl, rfl⟩

/-- `boundaryPhase` either passes the line vectors through unchanged or
commits exactly one line. -/
theorem boundaryPhase_spec (layout : LayoutData) (ma : ℚ) (al : Alignment)
    (st : BreakerState) (lines : LineLayout) (cluster : ClusterData)
    (isLigCont : Bool) :
    bpFacts lines (boundaryPhase layout ma al st lines cluster isLigCont) := by
  unfold boundaryPhase
  dsimp only
  repeat' split
  all_goals simp only [bpFacts]
  all_goals try trivial
  all_goals try (exact (commitLine_false (by assumption)).1)
  all_goals obtain ⟨hi, hl, hx, hp, -⟩ := startNewLine_spec (by assumption)
  all_goals exact ⟨commitLine_true (by assumption), hi, hl, hx, by rw [hp]⟩

/-- If `boundaryPhase` commits (`inl`), the committed-line facts hold. -/
theorem boundaryPhase_inl {layout : LayoutData} {ma : ℚ} {al : Alignment}
    {st : BreakerState} {lines : LineLayout} {cluster : ClusterData}
    {isLigCont : Bool} {res : ℚ × ℚ} {st2 : BreakerState} {lines' : LineLayout}
    (h : boundaryPhase layout ma al st lines cluster isLigCont =
      some (.inl (res, st2, lines'))) :
    committedFacts lines st2 lines' := by
  have hb := boundaryPhase_spec layout ma al st lines cluster isLigCont
  rw [h] at hb
  exact hb

/-- If `boundaryPhase` falls through (`inr`), the line vectors are
unchanged. -/
theorem boundaryPhase_inr {layout : LayoutData} {ma : ℚ} {al : Alignment}
    {st : BreakerState} {lines : LineLayout} {cluster : ClusterData}
    {isLigCont : Bool} {st1 : BreakerState} {lines1 : LineLayout}
    (h : boundaryPhase layout ma al st lines cluster isLigCont =
      some (.inr (st1, lines1))) :
    lines1 = lines := by
  have hb := boundaryPhase_spec layout ma al st lines cluster isLigCont
  rw [h] at hb
  exact hb

/-- A `break_next` loop iteration either continues with the line vectors
unchanged, exits the loop with everything unchanged, or commits exactly
one line. -/
theorem breakStep_spec (layout : LayoutData) (ma : ℚ) (al : Alignment)
    (st : BreakerState) (lines : LineLayout) :
    stepFacts st lines (breakStep layout ma al st lines) := by
  unfold breakStep
  dsimp only
  repeat' split
  all_goals simp only [stepFacts]
  all_goals try trivial
  all_goals try (rename_i heq; exact boundaryPhase_inl heq)
  all_goals (have hbp := boundaryPhase_inr (by assumption); subst hbp)
  all_goals try rfl
  all_goals try (exact (commitLine_false (by assumption)).1)
  all_goals obtain ⟨hi, hl, hx, hp, -⟩ := startNewLine_spec (by assumption)
  all_goals exact ⟨commitLine_true (by assumption), hi, hl, hx, by rw [hp]⟩

/-- Through any number of loop iterations that end in a commit, the line
vectors only grow by appending, and the returned high-water marks match
the new lengths. -/
theorem breakLoop_committed {layout : LayoutData} {ma : ℚ} {al : Alignment} :
    ∀ {fuel : Nat} {st : BreakerState} {lines : LineLayout} {res : ℚ × ℚ}
      {st' : BreakerState} {lines' : LineLayout},
      breakLoop layout ma al fuel st lines = some (.committed res st' lines') →
      (∃ δl δi, lines'.lines = lines.lines ++ δl ∧
        lines'.lineItems = lines.lineItems ++ δi) ∧
      st'.items = lines'.lineItems.length ∧ st'.lines = lines'.lines.length := by
  intro fuel
  induction fuel with
  | zero => intro st lines res st' lines' h; exact Option.noConfusion h
  | succ fuel ih =>
    intro st lines res st' lines' h
    unfold breakLoop at h
    split at h
    · exact Option.noConfusion h
    · rename_i out hs
      have hf := breakStep_spec layout ma al st lines
      rw [hs] at hf
      cases out with
      | committed res0 st0 lines0 =>
        simp only [Option.some.injEq, LoopOut.committed.injEq] at h
        obtain ⟨-, h2, h3⟩ := h
        subst h2 h3
        obtain ⟨⟨l, δ, -, hl, hi⟩, h4, h5, -⟩ := hf
        exact ⟨⟨[l], δ, hl, hi⟩, h4, h5⟩
      | exhausted st0 lines0 => simp at h
    · rename_i st1 lines1 hs
      have hf := breakStep_spec layout ma al st lines
      rw [hs] at hf
      subst hf
      obtain ⟨⟨δl, δi, h1, h2⟩, h3, h4⟩ := ih h
      exact ⟨⟨δl, δi, h1, h2⟩, h3, h4⟩

/-- If the loop exits by running out of runs, the line vectors are exactly
the input ones. -/
theorem breakLoop_exhausted {layout : LayoutData} {ma : ℚ} {al : Alignment} :
    ∀ {fuel : Nat} {st : BreakerState} {lines : LineLayout} {st' : BreakerState}
      {lines' : LineLayout},
      breakLoop layout ma al fuel st lines = some (.exhausted st' lines') →
      lines' = lines := by
  intro fuel
  induction fuel with
  | zero => intro st lines st' lines' h; exact Option.noConfusion h
  | succ fuel ih =>
    intro st lines st' lines' h
    unfold breakLoop at h
    split at h
    · exact Option.noConfusion h
    · rename_i out hs
      have hf := breakStep_spec layout ma al st lines
      rw [hs] at hf
      cases out with
      | committed res0 st0 lines0 => simp at h
      | exhausted st0 lines0 =>
        simp only [Option.some.injEq, LoopOut.exhausted.injEq] at h
        rw [← h.2]
        exact hf.2
    · rename_i st1 lines1 hs
      have hf := breakStep_spec layout ma al st lines
      rw [hs] at hf
      subst hf
      exact ih h

/-- `finishExhausted` either produces nothing or commits exactly one final
line with `done` set. -/
theorem finishExhausted_spec (layout : LayoutData) (ma : ℚ) (al : Alignment)
    (br : BreakLines) (pst : Option BreakerState) (st' : BreakerState)
    (lines' : LineLayout) :
    finishFacts lines' pst (finishExhausted layout ma al br pst st' lines') := by
  unfold finishExhausted
  dsimp only
  repeat' split
  all_goals simp only [finishFacts]
  all_goals try trivial
  all_goals obtain ⟨hi, hl, -⟩ := startNewLine_spec (by assumption)
  all_goals obtain ⟨l, δ, hne, hll, hii⟩ := commitLine_true (by assumption)
  all_goals exact ⟨_, _, l, δ, hne, rfl, hll, hii, hi, hl⟩

/-- **C2**. For a breaker whose high-water marks agree with the stored line
vectors (as holds for every breaker the API can produce), if `break_next`
returns `Some`, an immediate `revert` returns `true` and restores the
breaker state, the lines and line-items vectors, and the `done` flag
exactly to their pre-call values. -/
theorem C2_revert_roundtrip (layout : LayoutData) (br : BreakLines) (ma : ℚ)
    (al : Alignment) (res : ℚ × ℚ) (br2 : BreakLines)
    (hitems : br.state.items = br.lines.lineItems.length)
    (hlines : br.state.lines = br.lines.lines.length)
    (h : breakNext layout br ma al = (some res, br2)) :
    revert br2 =
      (true, { lines := br.lines, state := br.state, prevState := none,
               done := false }) := by
  unfold breakNext at h
  split at h
  · exact absurd (congrArg Prod.fst h) (by simp)
  · simp only [] at h
    rcases hb : breakLoop layout ma al (loopFuel layout) br.state br.lines
      with _ | (⟨res0, st0, lines0⟩ | ⟨st0, lines0⟩) <;> rw [hb] at h <;>
      simp only [] at h
    · exact absurd (congrArg Prod.fst h) (by simp)
    · simp only [Prod.mk.injEq, Option.some.injEq] at h
      obtain ⟨-, h2⟩ := h
      subst h2
      obtain ⟨⟨δl, δi, hl, hi⟩, -, -⟩ := breakLoop_committed hb
      unfold revert
      simp only [Prod.mk.injEq, true_and]
      congr 1
      rw [hl, hi, hlines, hitems]
      exact congrArg₂ LineLayout.mk (List.take_left _ _) (List.take_left _ _)
    · have hex : lines0 = br.lines := breakLoop_exhausted hb
      subst hex
      have hf := finishExhausted_spec layout ma al br (some br.state) st0 br.lines
      rw [h] at hf
      obtain ⟨lines2, st2, l, δ, -, hbr2, hl, hi, -, -⟩ := hf
      subst hbr2
      unfold revert
      simp only [Prod.mk.injEq, true_and]
      congr 1
      rw [hl, hi, hlines, hitems]
      exact congrArg₂ LineLayout.mk (List.take_left _ _) (List.take_left _ _)

/-- **C2** (witness): a first break on the `"a\\n\\nb"` layout followed by an
immediate revert restores the fresh breaker exactly. -/
theorem C2_revert_roundtrip_witness :
    revert (breakNext layoutMandatoryPair initBreaker 100 .start).2 =
      (true, { lines := initBreaker.lines, state := initBreaker.state,
               prevState := none, done := false }) := by
  obtain ⟨res, hres⟩ : ∃ res, breakNext layoutMandatoryPair initBreaker 100 .start =
      (some res, (breakNext layoutMandatoryPair initBreaker 100 .start).2) :=
    ⟨((breakNext layoutMandatoryPair initBreaker 100 .start).1).get (by decide), by decide⟩
  exact C2_revert_roundtrip layoutMandatoryPair initBreaker 100 .start res
    (breakNext layoutMandatoryPair initBreaker 100 .start).2 (by decide) (by decide) hres

/-! ## Lemmas for the bidi reorder equivalence (C8) -/

theorem reorderPass_eq_reverseMaximalSubruns (level : Nat) :
    ∀ l : List LineItemData, reorderPass level l = reverseMaximalSubruns level l := by
  suffices h : ∀ n (l : List LineItemData), l.length ≤ n →
      reorderPass level l = reverseMaximalSubruns level l by
    intro l; exact h l.length l le_rfl
  intro n
  induction n with
  | zero =>
    intro l hl
    rw [List.length_eq_zero.mp (Nat.le_zero.mp hl)]
    rw [reorderPass, reverseMaximalSubruns]
  | succ n ih =>
    intro l hl
    cases l with
    | nil => rw [reorderPass, reverseMaximalSubruns]
    | cons x xs =>
      rw [reorderPass, reverseMaximalSubruns]
      split
      · rcases hrest : xs.dropWhile (fun r => r.bidiLevel ≥ level) with _ | ⟨y, ys⟩ <;>
          rw [hrest] <;> dsimp only
        · rw [reverseMaximalSubruns]
        · have hy : ¬ y.bidiLevel ≥ level := by
            have h0 := List.head?_dropWhile_not
              (fun r : LineItemData => decide (r.bidiLevel ≥ level)) xs
            rw [hrest] at h0
            simpa using h0
          rw [reverseMaximalSubruns, if_neg hy]
          have hlen : ys.length ≤ n := by
            have hd := dropWhile_length_le
              (fun r : LineItemData => decide (r.bidiLevel ≥ level)) xs
            rw [hrest] at hd
            simp only [List.length_cons] at hd hl
            omega
          rw [ih ys hlen]
      · have hlen : xs.length ≤ n := by
          simp only [List.length_cons] at hl
          omega
        rw [ih xs hlen]

theorem reorderLevels_split :
    ∀ (runs : List LineItemData) (a : Nat × Nat),
      runs.foldl
        (fun acc run =>
          let level := run.bidiLevel
          let isOdd := level % 2 ≠ 0
          let maxLevel := if level > acc.1 then level else acc.1
          let lowestOdd := if isOdd ∧ level < acc.2 then level else acc.2
          (maxLevel, lowestOdd)) a =
      (runs.foldl (fun m run => if run.bidiLevel > m then run.bidiLevel else m) a.1,
        runs.foldl
          (fun m run =>
            if run.bidiLevel % 2 ≠ 0 ∧ run.bidiLevel < m then run.bidiLevel else m)
          a.2) := by
  intro runs
  induction runs with
  | nil => intro a; rfl
  | cons r rs ih => intro a; exact ih _

theorem maxLevel_fold (runs : List LineItemData) :
    ∀ m, runs.foldl (fun m run => if run.bidiLevel > m then run.bidiLevel else m) m =
      max m (specMaxLevel runs) := by
  induction runs with
  | nil => intro m; simp [specMaxLevel]
  | cons r rs ih =>
    intro m
    rw [List.foldl_cons, ih, specMaxLevel]
    split <;> omega

theorem minOdd_fold (runs : List LineItemData) :
    ∀ m, runs.foldl
        (fun m run =>
          if run.bidiLevel % 2 ≠ 0 ∧ run.bidiLevel < m then run.bidiLevel else m) m =
      (match specMinOdd runs with
        | none => m
        | some v => min m v) := by
  induction runs with
  | nil => intro m; rfl
  | cons r rs ih =>
    intro m
    rw [List.foldl_cons, ih, specMinOdd]
    by_cases hodd : r.bidiLevel % 2 = 1
    · rw [if_pos hodd]
      have hstep : (if r.bidiLevel % 2 ≠ 0 ∧ r.bidiLevel < m then r.bidiLevel else m) =
          min m r.bidiLevel := by
        rcases Nat.lt_or_ge r.bidiLevel m with h | h
        · rw [if_pos ⟨by omega, h⟩]; omega
        · rw [if_neg (by omega)]; omega
      rw [hstep]
      rcases hs : specMinOdd rs with _ | v <;> try rw [hs]
      all_goals dsimp only
      all_goals simp [min_assoc]
    · have hstep : (if r.bidiLevel % 2 ≠ 0 ∧ r.bidiLevel < m then r.bidiLevel else m) = m := by
        rw [if_neg (by omega)]
      rw [if_neg hodd, hstep]

theorem specMinOdd_mem : ∀ {runs : List LineItemData} {v : Nat},
    specMinOdd runs = some v → ∃ r ∈ runs, r.bidiLevel = v ∧ v % 2 = 1 := by
  intro runs
  induction runs with
  | nil => intro v h; exact Option.noConfusion h
  | cons r rs ih =>
    intro v h
    rw [specMinOdd] at h
    by_cases hodd : r.bidiLevel % 2 = 1
    · rw [if_pos hodd] at h
      rcases hs : specMinOdd rs with _ | w <;> rw [hs] at h <;>
        simp only [Option.some.injEq] at h
      · exact ⟨r, List.mem_cons_self r rs, h, h ▸ hodd⟩
      · obtain ⟨r2, hr2, hv2, hw⟩ := ih hs
        rcases Nat.le_total r.bidiLevel w with hle | hle
        · refine ⟨r, List.mem_cons_self r rs, ?_, ?_⟩ <;> omega
        · refine ⟨r2, List.mem_cons_of_mem r hr2, ?_, ?_⟩ <;> omega
    · rw [if_neg hodd] at h
      obtain ⟨r2, hr2, hv2, hw⟩ := ih h
      exact ⟨r2, List.mem_cons_of_mem r hr2, hv2, hw⟩

theorem specMinOdd_none_maxLevel : ∀ {runs : List LineItemData},
    (∀ r ∈ runs, r.bidiLevel ≤ 255) → specMinOdd runs = none →
    specMaxLevel runs ≤ 254 := by
  intro runs
  induction runs with
  | nil => intro _ _; simp [specMaxLevel]
  | cons r rs ih =>
    intro h255 hs
    rw [specMinOdd] at hs
    by_cases hodd : r.bidiLevel % 2 = 1
    · rw [if_pos hodd] at hs
      rcases specMinOdd rs with _ | w <;> exact Option.noConfusion hs
    · rw [if_neg hodd] at hs
      have h255r := h255 r (List.mem_cons_self r rs)
      have htail := ih (fun x hx => h255 x (List.mem_cons_of_mem r hx)) hs
      rw [specMaxLevel]
      omega

/-- **C8**. The in-place reordering implemented by `reorder_line_items`
agrees with UAX #9 rule L2 as the claim states it — for each level from
the maximum level down to the minimum odd level, every maximal contiguous
subrun of items of at least that level is reversed — for every item array
whose levels fit in `u8` (the type of `bidi_level`); in particular an
array whose levels are all zero is left unchanged. -/
theorem C8_reorder_matches_uax9 (runs : List LineItemData)
    (h255 : ∀ r ∈ runs, r.bidiLevel ≤ 255) :
    reorderLineItems runs = uax9L2 runs ∧
    ((∀ r ∈ runs, r.bidiLevel = 0) → reorderLineItems runs = runs) := by
  have hlevels : reorderLevels runs =
      (specMaxLevel runs,
        match specMinOdd runs with | none => 255 | some v => min 255 v) := by
    unfold reorderLevels
    rw [reorderLevels_split runs (0, 255), maxLevel_fold, minOdd_fold]
    rcases hs : specMinOdd runs with _ | v <;> simp
  have hmain : reorderLineItems runs = uax9L2 runs := by
    unfold reorderLineItems uax9L2
    rw [hlevels]
    rcases hs : specMinOdd runs with _ | v <;> try rw [hs]
    all_goals try dsimp only
    · have hempty : levelsDescending 255 (specMaxLevel runs) = [] := by
        have hmax := specMinOdd_none_maxLevel h255 hs
        unfold levelsDescending
        have h0 : specMaxLevel runs + 1 - 255 = 0 := by omega
        rw [h0]
        rfl
      rw [hempty]
      rfl
    · obtain ⟨r, hr, hv, -⟩ := specMinOdd_mem hs
      have hv255 : v ≤ 255 := hv ▸ h255 r hr
      have hmin : min 255 v = v := by omega
      rw [hmin]
      have hpass : ∀ (ls : List Nat) (rs : List LineItemData),
          ls.foldl (fun rs level => reorderPass level rs) rs =
          ls.foldl (fun rs level => reverseMaximalSubruns level rs) rs := by
        intro ls
        induction ls with
        | nil => intro rs; rfl
        | cons a as iha =>
          intro rs
          rw [List.foldl_cons, List.foldl_cons,
            reorderPass_eq_reverseMaximalSubruns a rs]
          exact iha _
      exact hpass _ _
  refine ⟨hmain, fun hzero => ?_⟩
  rw [hmain]
  unfold uax9L2
  rcases hs : specMinOdd runs with _ | v <;> try rw [hs]
  · rfl
  · obtain ⟨r, hr, hv, hvodd⟩ := specMinOdd_mem hs
    have := hzero r hr
    omega

/-- **C8** (witness): the equivalence applied to a concrete mixed-level
item sequence. -/
theorem C8_reorder_matches_uax9_witness :
    reorderLineItems demoItems = uax9L2 demoItems ∧
    ((∀ r ∈ demoItems, r.bidiLevel = 0) → reorderLineItems demoItems = demoItems) :=
  C8_reorder_matches_uax9 demoItems (by decide)

/-! ## Lemmas for the tree style builder (C5, C9, C10) -/

theorem validChain_node {S : Type} {tree : List (StyleTreeNode S)} {i d : Nat}
    (h : ValidChain tree i d) :
    ∃ p style, tree[i]? = some ⟨p, .span style⟩ ∧
      (d = 0 → p = none) ∧ (∀ e, d = e + 1 → ∃ q, p = some q ∧ ValidChain tree q e) := by
  cases h with
  | root hget => exact ⟨none, _, hget, fun _ => rfl, fun e he => Nat.noConfusion he⟩
  | child hget hp =>
    rename_i p d2 style
    refine ⟨some p, style, hget, fun h0 => Nat.noConfusion h0, fun e he => ?_⟩
    have hde : d2 = e := by omega
    subst hde
    exact ⟨p, rfl, hp⟩

theorem validChain_append {S : Type} {tree ts : List (StyleTreeNode S)} {i d : Nat}
    (h : ValidChain tree i d) : ValidChain (tree ++ ts) i d := by
  induction h with
  | root hget =>
    rename_i j style
    have h2 : (tree ++ ts)[j]? = some (⟨none, .span style⟩ : StyleTreeNode S) := by
      rw [List.getElem?_append_left (List.getElem?_eq_some.mp hget).1]
      exact hget
    exact ValidChain.root h2
  | child hget hp ih =>
    rename_i j p d2 style
    have h2 : (tree ++ ts)[j]? = some (⟨some p, .span style⟩ : StyleTreeNode S) := by
      rw [List.getElem?_append_left (List.getElem?_eq_some.mp hget).1]
      exact hget
    exact ValidChain.child h2 ih

theorem rangesChain_append {rs : List NRange} :
    ∀ {a b c : Nat}, rangesChain a rs b = true → b < c →
      rangesChain a (rs ++ [⟨b, c⟩]) c = true := by
  induction rs with
  | nil =>
    intro a b c h hbc
    simp only [rangesChain, decide_eq_true_eq] at h
    subst h
    simp [rangesChain, hbc]
  | cons r rs ih =>
    intro a b c h hbc
    simp only [rangesChain, Bool.and_eq_true, decide_eq_true_eq] at h ⊢
    exact ⟨h.1, ih h.2 hbc⟩

theorem currentStyle_of_chain {S : Type} {b : TreeStyleBuilder S} {d : Nat}
    (h : ValidChain b.tree b.currentSpan d) : ∃ s, b.currentStyle = some s := by
  obtain ⟨p, style, hget, -, -⟩ := validChain_node h
  refine ⟨style, ?_⟩
  unfold TreeStyleBuilder.currentStyle
  rw [hget]

theorem flushText_good {S : Type} {b : TreeStyleBuilder S} {d : Nat}
    (h : GoodState b d) :
    ∃ b2, b.flushText = some b2 ∧ GoodState b2 d ∧ b2.tree = b.tree ∧
      b2.currentSpan = b.currentSpan ∧ b2.totalTextLen = b.totalTextLen ∧
      b2.textLastPushedAt = b.totalTextLen := by
  obtain ⟨hchain, hle, hranges⟩ := h
  unfold TreeStyleBuilder.flushText
  by_cases hgt : b.totalTextLen > b.textLastPushedAt
  · rw [if_pos hgt]
    obtain ⟨s, hs⟩ := currentStyle_of_chain hchain
    rw [hs]
    refine ⟨_, rfl, ⟨hchain, le_rfl, ?_⟩, rfl, rfl, rfl, rfl⟩
    rw [List.map_append]
    exact rangesChain_append hranges hgt
  · rw [if_neg hgt]
    have heq : b.textLastPushedAt = b.totalTextLen := by omega
    exact ⟨b, rfl, ⟨hchain, hle, hranges⟩, rfl, rfl, rfl, heq⟩

theorem runOps_good {S P : Type} (applyProp : S → P → S) :
    ∀ (ops : List (TOp S P)) (b : TreeStyleBuilder S) (d : Nat),
      GoodState b d → prefixPopsOk ops d = true →
      b.totalTextLen + textTotal ops < USIZE_MAX →
      ∃ b2, runOps applyProp b ops = some b2 ∧
        GoodState b2 (d + spanPushes ops - spanPops ops) ∧
        spanPops ops ≤ d + spanPushes ops ∧
        b2.totalTextLen = b.totalTextLen + textTotal ops := by
  intro ops
  induction ops with
  | nil =>
    intro b d hg _ _
    exact ⟨b, rfl, by simpa [spanPushes, spanPops] using hg, by simp [spanPops], by
      simp [textTotal]⟩
  | cons op ops ih =>
    intro b d hg hpre hof
    cases op with
    | pushSpan s =>
      obtain ⟨b2, hflush, hg2, htree, hcur, htot, -⟩ := flushText_good hg
      have hg3 : GoodState
          { b2 with tree := b2.tree ++ [⟨some b2.currentSpan, .span s⟩]
                    currentSpan := b2.tree.length } (d + 1) := by
        obtain ⟨hchain2, hle2, hr2⟩ := hg2
        refine ⟨?_, hle2, hr2⟩
        have hnode : (b2.tree ++ [⟨some b2.currentSpan, .span s⟩])[b2.tree.length]? =
            some (⟨some b2.currentSpan, .span s⟩ : StyleTreeNode S) := by
          rw [List.getElem?_append_right le_rfl]
          simp
        exact ValidChain.child hnode (validChain_append hchain2)
      have hof3 : b2.totalTextLen + textTotal ops < USIZE_MAX := by
        rw [htot]
        simp only [textTotal] at hof
        omega
      obtain ⟨b4, hrun, hg4, hpops, htot4⟩ := ih _ (d + 1) hg3 hpre hof3
      refine ⟨b4, ?_, ?_, ?_, ?_⟩
      · simp only [runOps, runOp, TreeStyleBuilder.pushStyleSpan, hflush]
        exact hrun
      · have harith : d + (spanPushes ops + 1) - spanPops ops
            = d + 1 + spanPushes ops - spanPops ops := by omega
        simpa [spanPushes, spanPops, harith] using hg4
      · simp only [spanPushes, spanPops]
        omega
      · rw [htot4, htot]
        simp only [textTotal]
    | pushMod ps =>
      obtain ⟨s0, hs0⟩ := currentStyle_of_chain hg.1
      obtain ⟨b2, hflush, hg2, htree, hcur, htot, -⟩ := flushText_good hg
      have hg3 : GoodState
          { b2 with
            tree := b2.tree ++ [⟨some b2.currentSpan, .span (ps.foldl applyProp s0)⟩]
            currentSpan := b2.tree.length } (d + 1) := by
        obtain ⟨hchain2, hle2, hr2⟩ := hg2
        refine ⟨?_, hle2, hr2⟩
        have hnode : (b2.tree ++
              [⟨some b2.currentSpan, .span (ps.foldl applyProp s0)⟩])[b2.tree.length]? =
            some (⟨some b2.currentSpan, .span (ps.foldl applyProp s0)⟩ :
              StyleTreeNode S) := by
          rw [List.getElem?_append_right le_rfl]
          simp
        exact ValidChain.child hnode (validChain_append hchain2)
      have hof3 : b2.totalTextLen + textTotal ops < USIZE_MAX := by
        rw [htot]
        simp only [textTotal] at hof
        omega
      obtain ⟨b4, hrun, hg4, hpops, htot4⟩ := ih _ (d + 1) hg3 hpre hof3
      refine ⟨b4, ?_, ?_, ?_, ?_⟩
      · simp only [runOps, runOp, TreeStyleBuilder.pushStyleModificationSpan, hs0, hflush]
        exact hrun
      · have harith : d + (spanPushes ops + 1) - spanPops ops
            = d + 1 + spanPushes ops - spanPops ops := by omega
        simpa [spanPushes, spanPops, harith] using hg4
      · simp only [spanPushes, spanPops]
        omega
      · rw [htot4, htot]
        simp only [textTotal]
    | popSpan =>
      simp only [prefixPopsOk, Bool.and_eq_true, decide_eq_true_eq] at hpre
      obtain ⟨hd, hpre⟩ := hpre
      obtain ⟨e, rfl⟩ : ∃ e, d = e + 1 := ⟨d - 1, by omega⟩
      obtain ⟨b2, hflush, hg2, htree, hcur, htot, -⟩ := flushText_good hg
      obtain ⟨p, style, hget, -, hsucc⟩ := validChain_node hg2.1
      obtain ⟨q, rfl, hq⟩ := hsucc e rfl
      have hg3 : GoodState { b2 with currentSpan := q } e := by
        obtain ⟨-, hle2, hr2⟩ := hg2
        exact ⟨hq, hle2, hr2⟩
      have hof3 : b2.totalTextLen + textTotal ops < USIZE_MAX := by
        rw [htot]
        simp only [textTotal] at hof
        omega
      have hpre3 : prefixPopsOk ops e = true := by
        simpa using hpre
      obtain ⟨b4, hrun, hg4, hpops, htot4⟩ := ih _ e hg3 hpre3 hof3
      refine ⟨b4, ?_, ?_, ?_, ?_⟩
      · simp only [runOps, runOp, TreeStyleBuilder.popStyleSpan, hflush, hget]
        exact hrun
      · have harith : e + spanPushes ops - spanPops ops =
            e + 1 + spanPushes ops - (spanPops ops + 1) := by omega
        simpa [spanPushes, spanPops, ← harith] using hg4
      · simp only [spanPushes, spanPops]
        omega
      · rw [htot4, htot]
        simp only [textTotal]
    | pushTextOp n =>
      by_cases hn : n = 0
      · subst hn
        have hstep : TreeStyleBuilder.pushText b 0 = b := by
          unfold TreeStyleBuilder.pushText
          simp
        obtain ⟨b4, hrun, hg4, hpops, htot4⟩ := ih b d hg (by simpa using hpre)
          (by simpa [textTotal] using hof)
        refine ⟨b4, ?_, ?_, ?_, ?_⟩
        · simp only [runOps, runOp, hstep]
          exact hrun
        · simpa [spanPushes, spanPops] using hg4
        · simpa [spanPushes, spanPops] using hpops
        · rw [htot4]
          simp [textTotal]
      · have hnowrap : (b.totalTextLen + n) % 2 ^ 64 = b.totalTextLen + n := by
          apply Nat.mod_eq_of_lt
          simp only [textTotal] at hof
          unfold USIZE_MAX at hof
          omega
        have hg3 : GoodState (b.pushText n) d := by
          obtain ⟨hchain, hle, hr⟩ := hg
          unfold TreeStyleBuilder.pushText
          rw [if_neg hn]
          refine ⟨validChain_append hchain, ?_, hr⟩
          simp only [hnowrap]
          omega
        have htot3 : (b.pushText n).totalTextLen = b.totalTextLen + n := by
          unfold TreeStyleBuilder.pushText
          rw [if_neg hn]
          simpa using hnowrap
        have hof3 : (b.pushText n).totalTextLen + textTotal ops < USIZE_MAX := by
          rw [htot3]
          simp only [textTotal] at hof
          omega
        obtain ⟨b4, hrun, hg4, hpops, htot4⟩ := ih _ d hg3 (by simpa using hpre) hof3
        refine ⟨b4, ?_, ?_, ?_, ?_⟩
        · simp only [runOps, runOp]
          exact hrun
        · simpa [spanPushes, spanPops] using hg4
        · simpa [spanPushes, spanPops] using hpops
        · rw [htot4, htot3]
          simp only [textTotal]
          omega

theorem begin_good {S : Type} (b : TreeStyleBuilder S) (s0 : S) :
    GoodState (b.begin s0) 0 := by
  refine ⟨@ValidChain.root S _ _ s0 rfl, le_rfl, ?_⟩
  rfl

theorem begin_total {S : Type} (b : TreeStyleBuilder S) (s0 : S) :
    (b.begin s0).totalTextLen = 0 := rfl

/-- C5: for any root style and any balanced call sequence whose total text
length fits in `usize`, the styles returned by `finish` tile `[0,
total_text_len)`: each range starts where the previous one stopped (the
first at 0), each is nonempty, and the last stops at `total_text_len` —
contiguous, disjoint, non-empty, ordered, exact coverage. -/
theorem C5_tree_style_coverage {S P : Type} (applyProp : S → P → S)
    (s0 : S) (ops : List (TOp S P)) (styles : List (RangedStyle S))
    (hbal : balancedOps ops = true) (hof : textTotal ops < USIZE_MAX) :
    ∃ b1 bf out,
      runOps applyProp ((default : TreeStyleBuilder S).begin s0) ops = some b1 ∧
      TreeStyleBuilder.finish b1 styles = some (bf, out) ∧
      b1.totalTextLen = textTotal ops ∧
      rangesChain 0 (out.map RangedStyle.range) (textTotal ops) = true := by
  simp only [balancedOps, Bool.and_eq_true, decide_eq_true_eq] at hbal
  obtain ⟨hpre, heq⟩ := hbal
  have hof0 : ((default : TreeStyleBuilder S).begin s0).totalTextLen + textTotal ops
      < USIZE_MAX := by
    rw [begin_total]
    simpa using hof
  obtain ⟨b1, hrun, hg1, hpops, htot1⟩ :=
    runOps_good applyProp ops _ 0 (begin_good _ s0) hpre hof0
  rw [begin_total] at htot1
  simp only [Nat.zero_add] at htot1
  have hd0 : 0 + spanPushes ops - spanPops ops = 0 := by omega
  rw [hd0] at hg1
  obtain ⟨p, style, hget, hp0, -⟩ := validChain_node hg1.1
  rw [hp0 rfl] at hget
  obtain ⟨b2, hflush, hg2, htree2, hcur2, htot2, hlast2⟩ := flushText_good hg1
  refine ⟨b1, b2, b2.flattedStyles, hrun, ?_, htot1, ?_⟩
  · unfold TreeStyleBuilder.finish
    rw [if_neg (by omega)]
    have hfp : TreeStyleBuilder.finishPops (b1.tree.length + 1) b1 = some b1 := by
      unfold TreeStyleBuilder.finishPops
      rw [hget]
    simp only [hfp, hflush]
  · have hr2 := hg2.2.2
    rw [hlast2, htot1] at hr2
    exact hr2

theorem C5_tree_style_coverage_witness :
    (balancedOps ([TOp.pushTextOp 2, TOp.pushSpan 7, TOp.pushTextOp 3,
        TOp.popSpan, TOp.pushTextOp 1] : List (TOp Nat Nat)) = true ∧
      textTotal [TOp.pushTextOp 2, TOp.pushSpan 7, TOp.pushTextOp 3,
        TOp.popSpan, (TOp.pushTextOp 1 : TOp Nat Nat)] < USIZE_MAX) ∧
    ∃ b1 bf out,
      runOps (fun (s : Nat) (_ : Nat) => s)
        ((default : TreeStyleBuilder Nat).begin 0)
        [TOp.pushTextOp 2, TOp.pushSpan 7, TOp.pushTextOp 3,
          TOp.popSpan, TOp.pushTextOp 1] = some b1 ∧
      TreeStyleBuilder.finish b1 [] = some (bf, out) ∧
      b1.totalTextLen = textTotal [TOp.pushTextOp 2, TOp.pushSpan 7,
        TOp.pushTextOp 3, TOp.popSpan, (TOp.pushTextOp 1 : TOp Nat Nat)] ∧
      rangesChain 0 (out.map RangedStyle.range)
        (textTotal [TOp.pushTextOp 2, TOp.pushSpan 7, TOp.pushTextOp 3,
          TOp.popSpan, (TOp.pushTextOp 1 : TOp Nat Nat)]) = true :=
  ⟨⟨by decide, by decide⟩,
    C5_tree_style_coverage (fun (s : Nat) (_ : Nat) => s) 0 _ []
      (by decide) (by decide)⟩

/-- C9: on a begun builder after any prefix-safe call sequence,
`pop_style_span` panics exactly when every opened span has been popped
(the cursor is back at the root); with at least one span still open it
succeeds and moves the cursor to the parent of the current span node. -/
theorem C9_pop_style_span_root {S P : Type} (applyProp : S → P → S)
    (s0 : S) (ops : List (TOp S P))
    (hpre : prefixPopsOk ops 0 = true) (hof : textTotal ops < USIZE_MAX) :
    ∃ b1, runOps applyProp ((default : TreeStyleBuilder S).begin s0) ops = some b1 ∧
      (spanPops ops = spanPushes ops → b1.popStyleSpan = none) ∧
      (spanPops ops < spanPushes ops →
        ∃ b2 p style, b1.popStyleSpan = some b2 ∧
          b1.tree[b1.currentSpan]? = some ⟨some p, .span style⟩ ∧
          b2.currentSpan = p) := by
  have hof0 : ((default : TreeStyleBuilder S).begin s0).totalTextLen + textTotal ops
      < USIZE_MAX := by
    rw [begin_total]
    simpa using hof
  obtain ⟨b1, hrun, hg1, hpops, htot1⟩ :=
    runOps_good applyProp ops _ 0 (begin_good _ s0) hpre hof0
  obtain ⟨b2, hflush, hg2, htree2, hcur2, htot2, hlast2⟩ := flushText_good hg1
  refine ⟨b1, hrun, ?_, ?_⟩
  · intro heq
    have hd0 : 0 + spanPushes ops - spanPops ops = 0 := by omega
    rw [hd0] at hg1
    obtain ⟨p, style, hget, hp0, -⟩ := validChain_node hg1.1
    rw [hp0 rfl] at hget
    unfold TreeStyleBuilder.popStyleSpan
    simp only [hflush, hcur2, htree2, hget]
  · intro hlt
    have hd1 : 0 + spanPushes ops - spanPops ops
        = (spanPushes ops - spanPops ops - 1) + 1 := by omega
    rw [hd1] at hg1
    obtain ⟨p, style, hget, -, hsucc⟩ := validChain_node hg1.1
    obtain ⟨q, rfl, -⟩ := hsucc _ rfl
    refine ⟨{ b2 with currentSpan := q }, q, style, ?_, hget, rfl⟩
    unfold TreeStyleBuilder.popStyleSpan
    simp only [hflush, hcur2, htree2, hget]

theorem C9_pop_style_span_root_witness :
    (prefixPopsOk [TOp.pushSpan 5, (TOp.pushTextOp 4 : TOp Nat Nat)] 0 = true ∧
      textTotal [TOp.pushSpan 5, (TOp.pushTextOp 4 : TOp Nat Nat)] < USIZE_MAX) ∧
    ∃ b1, runOps (fun (s : Nat) (_ : Nat) => s)
        ((default : TreeStyleBuilder Nat).begin 0)
        [TOp.pushSpan 5, TOp.pushTextOp 4] = some b1 ∧
      (spanPops [TOp.pushSpan 5, (TOp.pushTextOp 4 : TOp Nat Nat)]
          = spanPushes [TOp.pushSpan 5, (TOp.pushTextOp 4 : TOp Nat Nat)] →
        b1.popStyleSpan = none) ∧
      (spanPops [TOp.pushSpan 5, (TOp.pushTextOp 4 : TOp Nat Nat)]
          < spanPushes [TOp.pushSpan 5, (TOp.pushTextOp 4 : TOp Nat Nat)] →
        ∃ b2 p style, b1.popStyleSpan = some b2 ∧
          b1.tree[b1.currentSpan]? = some ⟨some p, .span style⟩ ∧
          b2.currentSpan = p) :=
  ⟨⟨by decide, by decide⟩,
    C9_pop_style_span_root (fun (s : Nat) (_ : Nat) => s) 0 _
      (by decide) (by decide)⟩

/-- C10: `finish` on a never-begun builder (the `Default` state, whose
`total_text_len` is the `usize::MAX` sentinel) returns early with the
caller's styles vector untouched, only resetting the tree and the cursor;
on a begun builder it instead ignores the incoming vector and returns the
flattened styles (here: the empty flattening of an empty tree). -/
theorem C10_finish_default_untouched {S : Type}
    (styles : List (RangedStyle S)) (s0 : S) :
    TreeStyleBuilder.finish (default : TreeStyleBuilder S) styles =
      some (⟨[], [], USIZE_MAX, USIZE_MAX, 0⟩, styles) ∧
    TreeStyleBuilder.finish ((default : TreeStyleBuilder S).begin s0) styles =
      some ((default : TreeStyleBuilder S).begin s0, []) := by
  constructor
  · have hc : (default : TreeStyleBuilder S).totalTextLen = USIZE_MAX := rfl
    unfold TreeStyleBuilder.finish
    rw [if_pos hc]
    rfl
  · have hc2 : ((default : TreeStyleBuilder S).begin s0).totalTextLen ≠ USIZE_MAX := by
      rw [begin_total]
      decide
    unfold TreeStyleBuilder.finish
    rw [if_neg hc2]
    have hfp : TreeStyleBuilder.finishPops
        (((default : TreeStyleBuilder S).begin s0).tree.length + 1)
        ((default : TreeStyleBuilder S).begin s0)
        = some ((default : TreeStyleBuilder S).begin s0) := by
      unfold TreeStyleBuilder.finishPops
      rfl
    rw [hfp]
    rfl

/-! ## Width-bound invariant development (C3) -/

theorem runsFinal_ge : ∀ {s : Nat} {rs : List RunData},
    runsConsecutive s rs = true → s ≤ runsFinal s rs := by
  intro s rs
  induction rs generalizing s with
  | nil => intro _; exact le_rfl
  | cons r rs ih =>
    intro h
    simp only [runsConsecutive, Bool.and_eq_true, decide_eq_true_eq] at h
    obtain ⟨⟨h1, h2⟩, h3⟩ := h
    calc s = r.clusterRange.start := h1.symm
      _ ≤ r.clusterRange.stop := le_of_lt h2
      _ ≤ runsFinal r.clusterRange.stop rs := ih h3

theorem runsConsecutive_mem : ∀ {s : Nat} {rs : List RunData},
    runsConsecutive s rs = true → ∀ r ∈ rs,
      s ≤ r.clusterRange.start ∧
      r.clusterRange.start < r.clusterRange.stop ∧
      r.clusterRange.stop ≤ runsFinal s rs := by
  intro s rs
  induction rs generalizing s with
  | nil => intro _ r hr; exact absurd hr (List.not_mem_nil r)
  | cons r0 rs ih =>
    intro h r hr
    simp only [runsConsecutive, Bool.and_eq_true, decide_eq_true_eq] at h
    obtain ⟨⟨h1, h2⟩, h3⟩ := h
    rcases List.mem_cons.mp hr with rfl | hr2
    · exact ⟨le_of_eq h1.symm, h2, runsFinal_ge h3⟩
    · obtain ⟨g1, g2, g3⟩ := ih h3 r hr2
      exact ⟨le_trans (le_of_eq h1.symm) (le_trans (le_of_lt h2) g1), g2, g3⟩

theorem runsConsecutive_get : ∀ {s : Nat} {rs : List RunData},
    runsConsecutive s rs = true → ∀ i r r2, rs[i]? = some r →
      rs[i + 1]? = some r2 →
      r2.clusterRange.start = r.clusterRange.stop := by
  intro s rs
  induction rs generalizing s with
  | nil => intro _ i r r2 h1; simp at h1
  | cons r0 rs ih =>
    intro h i r r2 hi hi1
    simp only [runsConsecutive, Bool.and_eq_true, decide_eq_true_eq] at h
    obtain ⟨⟨-, -⟩, h3⟩ := h
    cases i with
    | zero =>
      simp only [List.getElem?_cons_zero, Option.some.injEq] at hi
      subst hi
      simp only [List.getElem?_cons_succ] at hi1
      cases rs with
      | nil => simp at hi1
      | cons r1 rs2 =>
        simp only [runsConsecutive, Bool.and_eq_true, decide_eq_true_eq] at h3
        simp only [List.getElem?_cons_zero, Option.some.injEq] at hi1
        subst hi1
        exact h3.1.1
    | succ j =>
      simp only [List.getElem?_cons_succ] at hi hi1
      exact ih h3 j r r2 hi hi1

theorem wf_facts {layout : LayoutData} (hwf : wfLayout layout = true) :
    layout.textLen ≠ 0 ∧
    runsConsecutive 0 layout.runs = true ∧
    runsFinal 0 layout.runs = layout.clusters.length ∧
    (∀ c ∈ layout.clusters, 0 ≤ c.advance ∧
      (c.info.whitespace.isSpaceOrNbsp = true → c.info.ligStart = false)) := by
  simp only [wfLayout, Bool.and_eq_true, decide_eq_true_eq,
    List.all_eq_true] at hwf
  obtain ⟨⟨⟨h1, h2⟩, h3⟩, h4⟩ := hwf
  refine ⟨h1, h2, h3, fun c hc => ?_⟩
  have h5 := h4 c hc
  simp only [Bool.and_eq_true, decide_eq_true_eq, Bool.not_eq_true',
    Bool.and_eq_false_iff] at h5
  refine ⟨h5.1, fun hs => ?_⟩
  rcases h5.2 with h | h
  · rw [hs] at h; exact absurd h (by simp)
  · exact h

theorem wf_run_mem {layout : LayoutData} (hwf : wfLayout layout = true) :
    ∀ r ∈ layout.runs, r.clusterRange.start < r.clusterRange.stop ∧
      r.clusterRange.stop ≤ layout.clusters.length := by
  obtain ⟨-, h2, h3, -⟩ := wf_facts hwf
  intro r hr
  obtain ⟨-, g2, g3⟩ := runsConsecutive_mem h2 r hr
  exact ⟨g2, h3 ▸ g3⟩

theorem wf_run_succ {layout : LayoutData} (hwf : wfLayout layout = true) :
    ∀ i r r2, layout.runs[i]? = some r → layout.runs[i + 1]? = some r2 →
      r2.clusterRange.start = r.clusterRange.stop :=
  runsConsecutive_get (wf_facts hwf).2.1

theorem wf_first_run {layout : LayoutData} (hwf : wfLayout layout = true) :
    ∀ r, layout.runs[0]? = some r → r.clusterRange.start = 0 := by
  obtain ⟨-, h2, -, -⟩ := wf_facts hwf
  intro r hr
  cases hrs : layout.runs with
  | nil => rw [hrs] at hr; simp at hr
  | cons r0 rs =>
    rw [hrs] at hr h2
    simp only [List.getElem?_cons_zero, Option.some.injEq] at hr
    subst hr
    simp only [runsConsecutive, Bool.and_eq_true, decide_eq_true_eq] at h2
    exact h2.1.1

theorem rangesChain_ge : ∀ {a : Nat} {rs : List NRange} {b : Nat},
    rangesChain a rs b = true → a ≤ b := by
  intro a rs
  induction rs generalizing a with
  | nil =>
    intro b h
    simp only [rangesChain, decide_eq_true_eq] at h
    exact le_of_eq h
  | cons r rs ih =>
    intro b h
    simp only [rangesChain, Bool.and_eq_true, decide_eq_true_eq] at h
    obtain ⟨⟨h1, h2⟩, h3⟩ := h
    have := ih h3
    omega

theorem rangesChain_mem : ∀ {a : Nat} {rs : List NRange} {b : Nat},
    rangesChain a rs b = true → ∀ r ∈ rs,
      a ≤ r.start ∧ r.start < r.stop ∧ r.stop ≤ b := by
  intro a rs
  induction rs generalizing a with
  | nil => intro b _ r hr; exact absurd hr (List.not_mem_nil r)
  | cons r0 rs ih =>
    intro b h r hr
    simp only [rangesChain, Bool.and_eq_true, decide_eq_true_eq] at h
    obtain ⟨⟨h1, h2⟩, h3⟩ := h
    rcases List.mem_cons.mp hr with rfl | hr2
    · have := rangesChain_ge h3
      omega
    · have := ih h3 r hr2
      omega

theorem lineProp_append {layout : LayoutData} {items δ : List LineItemData}
    {l : LineData} (h : lineProp layout items l)
    (h1 : 0 < l.runRange.stop) (h2 : l.runRange.stop ≤ items.length) :
    lineProp layout (items ++ δ) l := by
  intro hma
  rcases h hma with h | h | ⟨it, c, g1, g2, g3, g4⟩
  · exact Or.inl h
  · exact Or.inr (Or.inl h)
  · refine Or.inr (Or.inr ⟨it, c, ?_, g2, g3, g4⟩)
    rw [List.getElem?_append_left (by omega)]
    exact g1

theorem lineProp_take {layout : LayoutData} {items : List LineItemData}
    {k : Nat} {l : LineData} (h : lineProp layout items l)
    (h1 : 0 < l.runRange.stop) (h2 : l.runRange.stop ≤ k) :
    lineProp layout (items.take k) l := by
  intro hma
  rcases h hma with h | h | ⟨it, c, g1, g2, g3, g4⟩
  · exact Or.inl h
  · exact Or.inr (Or.inl h)
  · refine Or.inr (Or.inr ⟨it, c, ?_, g2, g3, g4⟩)
    rw [List.getElem?_take, if_pos (by omega)]
    exact g1

theorem linesInv_take {layout : LayoutData} {lines : LineLayout} {nl ni : Nat}
    (h : linesInv layout lines)
    (hchain : rangesChain 0 ((lines.lines.take nl).map LineData.runRange)
      ni = true)
    (hni : ni ≤ lines.lineItems.length) :
    linesInv layout ⟨lines.lines.take nl, lines.lineItems.take ni⟩ := by
  obtain ⟨h1, h2, h3⟩ := h
  refine ⟨?_, ?_, ?_⟩
  · have hlen : (lines.lineItems.take ni).length = ni := by
      rw [List.length_take]
      omega
    rw [hlen]
    exact hchain
  · intro it hit
    exact h2 it (List.mem_of_mem_take hit)
  · intro l hl
    have hmem := List.mem_of_mem_take hl
    have hr := rangesChain_mem hchain l.runRange
      (List.mem_map_of_mem LineData.runRange hl)
    exact lineProp_take (h3 l hmem) (by omega) hr.2.2

theorem commitItem_skip {layout : LayoutData} {state : LineState}
    {lastRun i : Nat} {rd : RunData}
    (h : commitItem layout state (decide (layout.textLen = 0)) lastRun i rd
      = some none) (htl : layout.textLen ≠ 0) :
    clipStop state lastRun i rd ≤ clipStart state i rd := by
  unfold commitItem at h
  dsimp only at h
  split at h
  · rename_i hg
    rcases hg with hg | ⟨-, hg⟩
    · omega
    · omega
  · exfalso
    split at h
    · exact Option.noConfusion h
    · simp at h

theorem commitItem_kept {layout : LayoutData} {state : LineState}
    {lastRun i : Nat} {rd : RunData} {it : LineItemData}
    (h : commitItem layout state (decide (layout.textLen = 0)) lastRun i rd
      = some (some it)) (htl : layout.textLen ≠ 0) :
    it.clusterRange = ⟨clipStart state i rd, clipStop state lastRun i rd⟩ ∧
    clipStart state i rd < clipStop state lastRun i rd := by
  unfold commitItem at h
  dsimp only at h
  split at h
  · exact absurd h (by simp)
  · rename_i hg
    have hie : ¬(decide (layout.textLen = 0) = true) := by simp [htl]
    split at h
    · exact absurd h Option.noConfusion
    · simp only [Option.some.injEq] at h
      subst h
      refine ⟨rfl, ?_⟩
      rcases Nat.lt_trichotomy (clipStart state i rd)
          (clipStop state lastRun i rd) with h1 | h1 | h1
      · exact h1
      · exact absurd (Or.inr ⟨hie, h1⟩) hg
      · exact absurd (Or.inl h1) hg

theorem commitRuns_bounds {layout : LayoutData} {state : LineState}
    {lastRun : Nat} (htl : layout.textLen ≠ 0)
    (hcs : state.clusters.stop ≤ layout.clusters.length) :
    ∀ {i : Nat} {rs : List RunData} {its : List LineItemData},
      commitRuns layout state lastRun i rs = some its →
      (∀ r ∈ rs, r.clusterRange.stop ≤ layout.clusters.length) →
      ∀ it ∈ its, it.clusterRange.start < it.clusterRange.stop ∧
        it.clusterRange.stop ≤ layout.clusters.length := by
  intro i rs
  induction rs generalizing i with
  | nil =>
    intro its h _ it hit
    simp only [commitRuns, Option.some.injEq] at h
    subst h
    exact absurd hit (List.not_mem_nil it)
  | cons r rest ih =>
    intro its h hrs it hit
    rw [commitRuns] at h
    rcases hcm : commitItem layout state (decide (layout.textLen = 0))
        lastRun i r with _ | (_ | item) <;> rw [hcm] at h
    · exact Option.noConfusion h
    · exact ih h (fun r2 hr2 => hrs r2 (List.mem_cons_of_mem r hr2)) it hit
    · rcases hrec : commitRuns layout state lastRun (i + 1) rest
        with _ | tl <;> rw [hrec] at h
      · exact Option.noConfusion h
      · simp only [Option.some.injEq] at h
        subst h
        rcases List.mem_cons.mp hit with rfl | hit2
        · obtain ⟨hcr, hlt⟩ := commitItem_kept hcm htl
          rw [hcr]
          refine ⟨hlt, ?_⟩
          dsimp only
          unfold clipStop
          split
          · exact hcs
          · exact hrs r (List.mem_cons_self r rest)
        · exact ih hrec (fun r2 hr2 => hrs r2 (List.mem_cons_of_mem r hr2))
            it hit2

theorem commitRuns_skip_all {layout : LayoutData} {state : LineState}
    {lastRun : Nat} (htl : layout.textLen ≠ 0) :
    ∀ {i : Nat} {rs : List RunData},
      commitRuns layout state lastRun i rs = some [] →
      ∀ j r, rs[j]? = some r →
        clipStop state lastRun (i + j) r ≤ clipStart state (i + j) r := by
  intro i rs
  induction rs generalizing i with
  | nil => intro h j r hj; simp at hj
  | cons r0 rest ih =>
    intro h j r hj
    rw [commitRuns] at h
    rcases hcm : commitItem layout state (decide (layout.textLen = 0))
        lastRun i r0 with _ | (_ | item) <;> rw [hcm] at h
    · exact Option.noConfusion h
    · cases j with
      | zero =>
        simp only [List.getElem?_cons_zero, Option.some.injEq] at hj
        subst hj
        simpa using commitItem_skip hcm htl
      | succ j2 =>
        simp only [List.getElem?_cons_succ] at hj
        have := ih h j2 r hj
        have harith : i + 1 + j2 = i + (j2 + 1) := by omega
        rwa [harith] at this
    · rcases hrec : commitRuns layout state lastRun (i + 1) rest
        with _ | tl <;> rw [hrec] at h
      · exact Option.noConfusion h
      · simp at h

theorem commitRuns_last {layout : LayoutData} {state : LineState}
    {lastRun : Nat} (htl : layout.textLen ≠ 0) :
    ∀ {i : Nat} {rs : List RunData} {its : List LineItemData} {rl : RunData},
      commitRuns layout state lastRun i rs = some its →
      i + rs.length = lastRun + 1 →
      rs.getLast? = some rl →
      clipStart state lastRun rl < state.clusters.stop →
      ∃ itl, its.getLast? = some itl ∧
        itl.clusterRange.stop = state.clusters.stop := by
  intro i rs
  induction rs generalizing i with
  | nil => intro its rl h _ hlast; simp at hlast
  | cons r rest ih =>
    intro its rl h hlen hlast hclip
    rw [commitRuns] at h
    cases rest with
    | nil =>
      simp only [List.length_cons, List.length_nil] at hlen
      have hi : i = lastRun := by omega
      simp only [List.getLast?_singleton, Option.some.injEq] at hlast
      subst hlast
      rcases hcm : commitItem layout state (decide (layout.textLen = 0))
          lastRun i r with _ | (_ | item) <;> rw [hcm] at h
      · exact Option.noConfusion h
      · exfalso
        have hsk := commitItem_skip hcm htl
        rw [hi] at hsk
        unfold clipStop at hsk
        rw [if_pos rfl] at hsk
        unfold clipStart at hsk hclip
        omega
      · simp only [commitRuns, Option.some.injEq] at h
        subst h
        obtain ⟨hcr, -⟩ := commitItem_kept hcm htl
        refine ⟨item, rfl, ?_⟩
        rw [hcr]
        unfold clipStop
        simp [hi]
    | cons r2 rest2 =>
      have hlast2 : (r2 :: rest2).getLast? = some rl := by
        rw [← hlast]
        exact List.getLast?_cons_cons.symm
      have hlen2 : i + 1 + (r2 :: rest2).length = lastRun + 1 := by
        simp only [List.length_cons] at hlen ⊢
        omega
      rcases hcm : commitItem layout state (decide (layout.textLen = 0))
          lastRun i r with _ | (_ | item) <;> rw [hcm] at h
      · exact Option.noConfusion h
      · exact ih h hlen2 hlast2 hclip
      · rcases hrec : commitRuns layout state lastRun (i + 1) (r2 :: rest2)
          with _ | tl <;> rw [hrec] at h
        · exact Option.noConfusion h
        · simp only [Option.some.injEq] at h
          subst h
          obtain ⟨itl, hitl, hstop⟩ := ih hrec hlen2 hlast2 hclip
          refine ⟨itl, ?_, hstop⟩
          cases tl with
          | nil => exact absurd hitl (by simp)
          | cons t0 tl2 => rw [List.getLast?_cons_cons, hitl]

theorem commitItems_bounds {layout : LayoutData} {state : LineState}
    (hwf : wfLayout layout = true)
    (hcs : state.clusters.stop ≤ layout.clusters.length)
    {its : List LineItemData}
    (h : commitItems layout state = some its) :
    ∀ it ∈ its, it.clusterRange.start < it.clusterRange.stop ∧
      it.clusterRange.stop ≤ layout.clusters.length := by
  obtain ⟨htl, -, -, -⟩ := wf_facts hwf
  unfold commitItems at h
  split at h
  · split at h
    · simp only [Option.some.injEq] at h
      subst h
      intro it hit
      exact absurd hit (List.not_mem_nil it)
    · exact Option.noConfusion h
  · refine commitRuns_bounds htl hcs h (fun r hr => ?_)
    exact (wf_run_mem hwf r (List.mem_of_mem_drop (List.mem_of_mem_take hr))).2

theorem commitItems_nil {layout : LayoutData} {state : LineState}
    (hwf : wfLayout layout = true)
    (h : commitItems layout state = some []) :
    state.runs.stop ≤ state.runs.start ∨
      state.clusters.stop ≤ state.clusters.start := by
  obtain ⟨htl, -, -, -⟩ := wf_facts hwf
  unfold commitItems at h
  split at h
  · split at h
    · rename_i hq
      exact Or.inl (le_of_eq hq.1)
    · exact Option.noConfusion h
  · rename_i hg
    push_neg at hg
    obtain ⟨hg1, hg2, hg3⟩ := hg
    by_contra hcon
    push_neg at hcon
    obtain ⟨-, hc1⟩ := hcon
    have hskip := commitRuns_skip_all htl h
    have hslice : ∀ j, j < state.runs.len →
        ((layout.runs.drop state.runs.start).take state.runs.len)[j]?
          = layout.runs[state.runs.start + j]? := by
      intro j hj
      rw [List.getElem?_take, if_pos hj, List.getElem?_drop]
    have hget : ∀ j, j < state.runs.len →
        ∃ rj, layout.runs[state.runs.start + j]? = some rj := by
      intro j hj
      have hb : state.runs.start + j < layout.runs.length := by
        simp only [NRange.len] at hj
        omega
      exact ⟨_, List.getElem?_eq_getElem hb⟩
    have hlen1 : 1 ≤ state.runs.len := by
      simp only [NRange.len]
      omega
    by_cases hn1 : state.runs.len = 1
    · obtain ⟨r0, hr0⟩ := hget 0 (by omega)
      have h0 := hskip 0 r0 (by rw [hslice 0 (by omega)]; exact hr0)
      simp [clipStart, clipStop, hn1] at h0
      omega
    · by_cases hn2 : state.runs.len = 2
      · obtain ⟨r0, hr0⟩ := hget 0 (by omega)
        obtain ⟨r1, hr1⟩ := hget 1 (by omega)
        have h0 := hskip 0 r0 (by rw [hslice 0 (by omega)]; exact hr0)
        have h1 := hskip 1 r1 (by rw [hslice 1 (by omega)]; exact hr1)
        have hsucc := wf_run_succ hwf (state.runs.start + 0) r0 r1 hr0
          (by
            have harith : state.runs.start + 0 + 1 = state.runs.start + 1 := by
              omega
            rw [harith]
            exact hr1)
        simp [clipStart, clipStop, hn2] at h0 h1
        omega
      · have hn3 : 3 ≤ state.runs.len := by omega
        obtain ⟨r1, hr1⟩ := hget 1 (by omega)
        have h1 := hskip 1 r1 (by rw [hslice 1 (by omega)]; exact hr1)
        simp only [clipStart, clipStop, Nat.zero_add] at h1
        rw [if_neg (show ¬(1 = state.runs.len - 1) by omega)] at h1
        rw [if_neg (show ¬(1 = 0) by decide)] at h1
        have hmem := wf_run_mem hwf r1 (List.getElem?_mem hr1)
        omega

theorem commitItems_last {layout : LayoutData} {state : LineState}
    (hwf : wfLayout layout = true) {its : List LineItemData}
    (h : commitItems layout state = some its)
    (hne : state.runs.start < state.runs.stop)
    {rl : RunData}
    (hrl : layout.runs[state.runs.stop - 1]? = some rl)
    (hclip : clipStart state (state.runs.len - 1) rl < state.clusters.stop) :
    ∃ itl, its.getLast? = some itl ∧
      itl.clusterRange.stop = state.clusters.stop := by
  obtain ⟨htl, -, -, -⟩ := wf_facts hwf
  have hstopb : state.runs.stop - 1 < layout.runs.length :=
    (List.getElem?_eq_some.mp hrl).1
  unfold commitItems at h
  split at h
  · rename_i hg
    exfalso
    rcases hg with hg | hg | hg
    · omega
    · omega
    · omega
  · have hlen : ((layout.runs.drop state.runs.start).take state.runs.len).length
        = state.runs.len := by
      simp only [List.length_take, List.length_drop, NRange.len]
      omega
    refine commitRuns_last htl h ?_ ?_ hclip
    · rw [hlen]
      simp only [NRange.len]
      omega
    · rw [List.getLast?_eq_getElem?, hlen, List.getElem?_take,
        if_pos (by simp only [NRange.len]; omega), List.getElem?_drop]
      have harith : state.runs.start + (state.runs.len - 1)
          = state.runs.stop - 1 := by
        simp only [NRange.len]
        omega
      rw [harith]
      exact hrl

theorem commitLine_false_items {layout : LayoutData} {lines : LineLayout}
    {state : LineState} {ma : ℚ} {al : Alignment} {r : BreakReason}
    {L : LineLayout} {S : LineState}
    (h : commitLine layout lines state ma al r = some (false, L, S)) :
    commitItems layout (clampState layout state) = some [] := by
  unfold commitLine at h
  simp only [] at h
  rcases hci : commitItems layout (clampState layout state)
    with _ | (_ | ⟨i, is⟩) <;> try rw [hci] at h
  all_goals first
    | rfl
    | exact Option.noConfusion h
    | simp at h

theorem commitLine_true_facts {layout : LayoutData} {lines : LineLayout}
    {state : LineState} {ma : ℚ} {al : Alignment} {r : BreakReason}
    {L : LineLayout} {S : LineState}
    (h : commitLine layout lines state ma al r = some (true, L, S)) :
    ∃ items l, commitItems layout (clampState layout state) = some items ∧
      items ≠ [] ∧
      L.lines = lines.lines ++ [l] ∧ L.lineItems = lines.lineItems ++ items ∧
      l.runRange = ⟨lines.lineItems.length,
        lines.lineItems.length + items.length⟩ ∧
      l.maxAdvance = ma ∧ l.breakReason = r ∧ l.metrics.advance = state.x ∧
      S.x = state.x ∧
      S.runs = ⟨state.runs.stop - 1, state.runs.stop⟩ ∧
      S.clusters = ⟨min state.clusters.stop layout.clusters.length,
        min state.clusters.stop layout.clusters.length + 1⟩ := by
  unfold commitLine at h
  simp only [] at h
  rcases hci : commitItems layout (clampState layout state)
    with _ | (_ | ⟨i0, is⟩) <;> rw [hci] at h
  · exact Option.noConfusion h
  · simp at h
  · simp only [Option.some.injEq, Prod.mk.injEq, true_and] at h
    obtain ⟨hL, hS⟩ := h
    subst hL
    subst hS
    exact ⟨i0 :: is, _, rfl, by simp, rfl, rfl, rfl, rfl, rfl, rfl, rfl, rfl,
      rfl⟩

theorem runGet_some {layout : LayoutData} {rd : RunData} {i : Nat}
    {c : ClusterData} (h : runGet layout rd i = some c) :
    i < rd.clusterRange.len ∧
      layout.clusters[rd.clusterRange.start + i]? = some c := by
  unfold runGet at h
  split at h
  · exact ⟨by assumption, h⟩
  · exact Option.noConfusion h

theorem ligSweep_idx_ge {layout : LayoutData} {rd : RunData} :
    ∀ {fuel idx : Nat} {adv : ℚ},
      idx ≤ (ligSweep layout rd fuel idx adv).1 := by
  intro fuel
  induction fuel with
  | zero => intro idx adv; exact le_rfl
  | succ fuel ih =>
    intro idx adv
    rcases hrg : runGet layout rd (idx + 1) with _ | c
    · simp only [ligSweep, hrg]
      exact le_rfl
    · simp only [ligSweep, hrg]
      split
      · exact le_rfl
      · exact le_trans (Nat.le_succ idx) ih

theorem ligSweep_adv_ge {layout : LayoutData} {rd : RunData}
    (hadv : ∀ c ∈ layout.clusters, 0 ≤ c.advance) :
    ∀ {fuel idx : Nat} {adv : ℚ},
      adv ≤ (ligSweep layout rd fuel idx adv).2 := by
  intro fuel
  induction fuel with
  | zero => intro idx adv; exact le_rfl
  | succ fuel ih =>
    intro idx adv
    rcases hrg : runGet layout rd (idx + 1) with _ | c
    · simp only [ligSweep, hrg]
      exact le_rfl
    · simp only [ligSweep, hrg]
      split
      · exact le_rfl
      · have hc := hadv c (List.getElem?_mem (runGet_some hrg).2)
        calc adv ≤ adv + c.advance := by linarith
          _ ≤ _ := ih

theorem ligSweep_ub {layout : LayoutData} {rd : RunData} :
    ∀ {fuel idx : Nat} {adv : ℚ},
      (ligSweep layout rd fuel idx adv).1 ≤
        max idx (rd.clusterRange.len - 1) := by
  intro fuel
  induction fuel with
  | zero => intro idx adv; exact le_max_left _ _
  | succ fuel ih =>
    intro idx adv
    rcases hrg : runGet layout rd (idx + 1) with _ | c
    · simp only [ligSweep, hrg]
      exact le_max_left _ _
    · simp only [ligSweep, hrg]
      split
      · exact le_max_left _ _
      · have hlt := (runGet_some hrg).1
        refine le_trans ih (Nat.max_le.mpr ⟨?_, le_max_right _ _⟩)
        exact le_trans (by omega) (le_max_right idx (rd.clusterRange.len - 1))

theorem commit_linesInv_basic {layout : LayoutData} {lines : LineLayout}
    {s : LineState} {ma : ℚ} {al : Alignment} {r : BreakReason}
    {L : LineLayout} {S : LineState}
    (hwf : wfLayout layout = true)
    (hli : linesInv layout lines)
    (h : commitLine layout lines s ma al r = some (true, L, S))
    (hprop : r = .emergency ∨ (0 ≤ ma → s.x ≤ ma)) :
    linesInv layout L := by
  obtain ⟨items, l, hci, hne, hLl, hLi, hrr, hma, hbr, hadv, -, -, -⟩ :=
    commitLine_true_facts h
  obtain ⟨hchain, hbounds, hprops⟩ := hli
  refine ⟨?_, ?_, ?_⟩
  · rw [hLl, hLi, List.map_append, List.length_append]
    simp only [List.map_cons, List.map_nil]
    rw [hrr]
    refine rangesChain_append hchain ?_
    cases items with
    | nil => exact absurd rfl hne
    | cons a as => simp
  · intro it hit
    rw [hLi] at hit
    rcases List.mem_append.mp hit with hit | hit
    · exact hbounds it hit
    · have hclamped : (clampState layout s).clusters.stop ≤
          layout.clusters.length := by
        simp [clampState]
      exact commitItems_bounds hwf hclamped hci it hit
  · intro l2 hl2
    rw [hLl] at hl2
    rcases List.mem_append.mp hl2 with hl2 | hl2
    · have hm := rangesChain_mem hchain l2.runRange
        (List.mem_map_of_mem LineData.runRange hl2)
      rw [hLi]
      exact lineProp_append (hprops l2 hl2) (by omega) hm.2.2
    · simp only [List.mem_singleton] at hl2
      subst hl2
      intro hma0
      rcases hprop with hp | hp
      · exact Or.inl (hbr.trans hp)
      · refine Or.inr (Or.inl ?_)
        rw [hadv, hma]
        exact hp (hma ▸ hma0)

theorem commit_linesInv_hang {layout : LayoutData} {lines : LineLayout}
    {s : LineState} {ma : ℚ} {al : Alignment}
    {L : LineLayout} {S : LineState}
    (hwf : wfLayout layout = true)
    (hli : linesInv layout lines)
    (h : commitLine layout lines s ma al .regular = some (true, L, S))
    (c : ClusterData)
    (hc : layout.clusters[min s.clusters.stop layout.clusters.length - 1]?
      = some c)
    (hsp : c.info.whitespace.isSpaceOrNbsp = true)
    (hx : 0 ≤ ma → s.x - c.advance ≤ ma)
    (hne : s.runs.start < s.runs.stop)
    (rl : RunData)
    (hrl : layout.runs[s.runs.stop - 1]? = some rl)
    (hclip : (if s.runs.len - 1 = 0 then s.clusters.start
      else rl.clusterRange.start) < min s.clusters.stop layout.clusters.length) :
    linesInv layout L := by
  obtain ⟨items, l, hci, hne2, hLl, hLi, hrr, hma, hbr, hadv, -, -, -⟩ :=
    commitLine_true_facts h
  obtain ⟨hchain, hbounds, hprops⟩ := hli
  have hlast := commitItems_last hwf hci (by simp [clampState]; omega)
    (by simpa [clampState] using hrl)
    (by simpa [clipStart, clampState, NRange.len] using hclip)
  obtain ⟨itl, hitl, hstop⟩ := hlast
  refine ⟨?_, ?_, ?_⟩
  · rw [hLl, hLi, List.map_append, List.length_append]
    simp only [List.map_cons, List.map_nil]
    rw [hrr]
    refine rangesChain_append hchain ?_
    cases items with
    | nil => exact absurd rfl hne2
    | cons a as => simp
  · intro it hit
    rw [hLi] at hit
    rcases List.mem_append.mp hit with hit | hit
    · exact hbounds it hit
    · have hclamped : (clampState layout s).clusters.stop ≤
          layout.clusters.length := by
        simp [clampState]
      exact commitItems_bounds hwf hclamped hci it hit
  · intro l2 hl2
    rw [hLl] at hl2
    rcases List.mem_append.mp hl2 with hl2 | hl2
    · have hm := rangesChain_mem hchain l2.runRange
        (List.mem_map_of_mem LineData.runRange hl2)
      rw [hLi]
      exact lineProp_append (hprops l2 hl2) (by omega) hm.2.2
    · simp only [List.mem_singleton] at hl2
      subst hl2
      intro hma0
      refine Or.inr (Or.inr ⟨itl, c, ?_, ?_, hsp, ?_⟩)
      · rw [hLi, hrr]
        dsimp only
        have hlen : 1 ≤ items.length := by
          cases items with
          | nil => exact absurd rfl hne2
          | cons a as => simp
        rw [List.getElem?_append_right (by omega)]
        have harith : lines.lineItems.length + items.length - 1
            - lines.lineItems.length = items.length - 1 := by omega
        rw [harith, ← List.getLast?_eq_getElem?]
        exact hitl
      · rw [hstop]
        have hcl : (clampState layout s).clusters.stop
            = min s.clusters.stop layout.clusters.length := rfl
        rw [hcl]
        exact hc
      · rw [hadv, hma]
        exact hx (hma ▸ hma0)

theorem commitExit_inv {layout : LayoutData} {lines : LineLayout}
    {s : LineState} {ma : ℚ} {al : Alignment} {reason : BreakReason}
    {lines2 : LineLayout} {ls2 : LineState} {starg : BreakerState}
    {res : ℚ × ℚ} {st3 : BreakerState}
    (hcl : commitLine layout lines s ma al reason = some (true, lines2, ls2))
    (hlinv2 : linesInv layout lines2)
    (hsn : startNewLine lines2 starg = some (res, st3))
    (hargr : starg.line.runs = ls2.runs)
    (hargc : starg.line.clusters = ls2.clusters)
    (hargp : starg.prevBoundary = none)
    (hS1 : min s.clusters.stop layout.clusters.length ≤ starg.clusterIdx)
    (hS2 : s.runs.stop - 1 ≤ starg.runIdx)
    (hS3 : s.runs.stop ≤ starg.runIdx + 1)
    (hS6 : ∀ r, layout.runs[starg.runIdx]? = some r →
      r.clusterRange.start ≤ starg.clusterIdx) :
    exitInv layout st3 lines2 := by
  obtain ⟨-, -, -, -, -, -, -, -, -, -, -, hSr, hSc⟩ := commitLine_true_facts hcl
  obtain ⟨hi, hl, hx, hp, hri, hci, hlr, hlc, -⟩ := startNewLine_spec hsn
  refine ⟨hx, ⟨?_, ?_, ?_, ?_, ?_, ?_, ?_⟩, ?_, hlinv2, hi, hl⟩
  · rw [hx]
  · rw [hlc, hargc, hSc, hci]
    exact hS1
  · rw [hlc, hargc, hSc, hci]
    dsimp only
    omega
  · rw [hlr, hargr, hSr, hri]
    exact hS2
  · rw [hlr, hargr, hSr, hri]
    dsimp only
    omega
  · intro r hr
    rw [hri] at hr
    rw [hci]
    exact hS6 r hr
  · intro hx0
    rw [hx] at hx0
    exact absurd rfl hx0
  · rw [hp, hargp]

theorem boundaryPhase_inl_inv {layout : LayoutData} {ma : ℚ} {al : Alignment}
    {st : BreakerState} {lines : LineLayout} {cluster : ClusterData}
    {isLigCont : Bool} {res : ℚ × ℚ} {st2 : BreakerState} {lines2 : LineLayout}
    (hwf : wfLayout layout = true)
    (hLI : loopInv layout ma st lines)
    (h : boundaryPhase layout ma al st lines cluster isLigCont
      = some (.inl (res, st2, lines2))) :
    exitInv layout st2 lines2 := by
  obtain ⟨⟨hK1, hK2, hK3, hK4, hK5, hK6, hK7⟩, hA2, hprev, hlinv, hhwi, hhwl⟩ :=
    hLI
  unfold boundaryPhase at h
  rcases hb : cluster.info.boundary with _ | _ | _ | _ <;> rw [hb] at h <;>
    dsimp only at h
  case mandatory =>
    split at h
    · split at h
      case h_1 => exact Option.noConfusion h
      case h_2 lines' lstate' hcl =>
        split at h
        case h_1 => exact Option.noConfusion h
        case h_2 res0 st20 hsn =>
          simp only [Option.some.injEq, Sum.inl.injEq, Prod.mk.injEq] at h
          obtain ⟨-, h2, h3⟩ := h
          subst h2
          subst h3
          refine commitExit_inv hcl
            (commit_linesInv_basic hwf hlinv hcl (Or.inr hA2)) hsn
            rfl rfl rfl ?_ ?_ ?_ ?_
          · dsimp only
            omega
          · dsimp only
            omega
          · dsimp only
            omega
          · exact hK6
      case h_3 lines' lstate' hcl => simp at h
    · simp at h
  all_goals first
    | (split at h <;> simp at h)
    | simp at h

theorem boundaryPhase_inr_inv {layout : LayoutData} {ma : ℚ} {al : Alignment}
    {st : BreakerState} {lines : LineLayout} {cluster : ClusterData}
    {isLigCont : Bool} {st1 : BreakerState} {lines1 : LineLayout}
    (hwf : wfLayout layout = true)
    (hLI : loopInv layout ma st lines)
    (h : boundaryPhase layout ma al st lines cluster isLigCont
      = some (.inr (st1, lines1))) :
    loopInv layout ma st1 lines1 ∧
    st1.runIdx = st.runIdx ∧ st1.clusterIdx = st.clusterIdx ∧
    st1.line.x = st.line.x ∧
    st1.line.clusters.start = st.line.clusters.start ∧
    st1.line.runs.start = st.line.runs.start := by
  obtain ⟨⟨hK1, hK2, hK3, hK4, hK5, hK6, hK7⟩, hA2, hprev, hlinv, hhwi, hhwl⟩ :=
    hLI
  unfold boundaryPhase at h
  rcases hb : cluster.info.boundary with _ | _ | _ | _ <;> rw [hb] at h <;>
    dsimp only at h
  case mandatory =>
    split at h
    · split at h
      case h_1 => exact Option.noConfusion h
      case h_2 lines' lstate' hcl =>
        split at h
        case h_1 => exact Option.noConfusion h
        case h_2 res0 st20 hsn => simp at h
      case h_3 lines' lstate' hcl =>
        simp only [Option.some.injEq, Sum.inr.injEq, Prod.mk.injEq] at h
        obtain ⟨h2, h3⟩ := h
        subst h2
        subst h3
        obtain ⟨hL, hS⟩ := commitLine_false hcl
        subst hL
        have hx0 : st.line.x = 0 := by
          by_contra hx0
          obtain ⟨g1, g2, g3, g4⟩ := hK7 hx0
          have hnil := commitItems_nil hwf (commitLine_false_items hcl)
          simp only [clampState] at hnil
          try dsimp only at hnil
          have hmin : st.line.clusters.stop ≤
              min st.clusterIdx layout.clusters.length := le_min g2 g3
          omega
        refine ⟨⟨⟨?_, ?_, ?_, ?_, ?_, ?_, ?_⟩, ?_, ?_, hlinv, hhwi, hhwl⟩,
          rfl, rfl, ?_, ?_, ?_⟩
        · rw [hS]
          exact hK1
        · rw [hS]
          simp only [clampState]
          exact hK2
        · rw [hS]
          simp only [clampState]
          try dsimp only
          omega
        · rw [hS]
          exact hK4
        · rw [hS]
          simp only [clampState]
          try dsimp only
          omega
        · exact hK6
        · rw [hS]
          simp only [clampState]
          try dsimp only
          intro hx
          rw [hx0] at hx
          exact absurd rfl hx
        · rw [hS]
          simp only [clampState]
          try dsimp only
          intro hma
          rw [hx0]
          exact hma
        · intro p hp
          simp only at hp
          exact Option.noConfusion hp
        · rw [hS]
          rfl
        · rw [hS]
          rfl
        · rw [hS]
          rfl
    · simp only [Option.some.injEq, Sum.inr.injEq, Prod.mk.injEq] at h
      obtain ⟨h2, h3⟩ := h
      subst h2
      subst h3
      exact ⟨⟨⟨hK1, hK2, hK3, hK4, hK5, hK6, hK7⟩, hA2, hprev, hlinv, hhwi,
        hhwl⟩, rfl, rfl, rfl, rfl, rfl⟩
  case line =>
    split at h
    · simp only [Option.some.injEq, Sum.inr.injEq, Prod.mk.injEq] at h
      obtain ⟨h2, h3⟩ := h
      subst h2
      subst h3
      refine ⟨⟨⟨hK1, hK2, hK3, hK4, hK5, hK6, hK7⟩, hA2, ?_, hlinv, hhwi,
        hhwl⟩, rfl, rfl, rfl, rfl, rfl⟩
      intro p hp
      simp only [Option.some.injEq] at hp
      subst hp
      exact ⟨⟨hK1, hK2, hK3, hK4, hK5, hK6, hK7⟩, le_rfl, hA2⟩
    · simp only [Option.some.injEq, Sum.inr.injEq, Prod.mk.injEq] at h
      obtain ⟨h2, h3⟩ := h
      subst h2
      subst h3
      exact ⟨⟨⟨hK1, hK2, hK3, hK4, hK5, hK6, hK7⟩, hA2, hprev, hlinv, hhwi,
        hhwl⟩, rfl, rfl, rfl, rfl, rfl⟩
  all_goals
    simp only [Option.some.injEq, Sum.inr.injEq, Prod.mk.injEq] at h
  all_goals
    obtain ⟨h2, h3⟩ := h
  all_goals
    subst h2
  all_goals
    subst h3
  all_goals
    exact ⟨⟨⟨hK1, hK2, hK3, hK4, hK5, hK6, hK7⟩, hA2, hprev, hlinv, hhwi,
      hhwl⟩, rfl, rfl, rfl, rfl, rfl⟩


theorem breakStep_inv (layout : LayoutData) (ma : ℚ) (al : Alignment)
    (st : BreakerState) (lines : LineLayout)
    (hwf : wfLayout layout = true)
    (hLI : loopInv layout ma st lines) :
    stepInv layout ma st lines (breakStep layout ma al st lines) := by
  obtain ⟨⟨hK1, hK2, hK3, hK4, hK5, hK6, hK7⟩, hA2, hprev, hlinv, hhwi, hhwl⟩ :=
    hLI
  unfold breakStep
  dsimp only
  split
  case isFalse hrun => exact ⟨rfl, rfl⟩
  case isTrue hrun =>
    split
    case isFalse hciLt =>
      refine ⟨⟨hK1, hK2, hK3, ?_, ?_, ?_, hK7⟩, hA2, hprev, hlinv,
        hhwi, hhwl⟩
      · dsimp only
        omega
      · dsimp only
        omega
      · intro r hr
        dsimp only at hr ⊢
        have hsucc := wf_run_succ hwf st.runIdx _ r
          (List.getElem?_eq_getElem hrun) hr
        omega
    case isTrue hciLt =>
      split
      case h_1 => trivial
      case h_2 cluster hclu =>
        split
        case h_1 hbp => trivial
        case h_2 res0 st20 lines20 hbp =>
          exact boundaryPhase_inl_inv hwf
            ⟨⟨hK1, hK2, hK3, hK4, hK5, hK6, hK7⟩, hA2, hprev, hlinv, hhwi,
              hhwl⟩ hbp
        case h_3 st1 lines1 hbp =>
          obtain ⟨hLI1, hri1, hci1, hx1, hcs1, hrs1⟩ := boundaryPhase_inr_inv
            hwf ⟨⟨hK1, hK2, hK3, hK4, hK5, hK6, hK7⟩, hA2, hprev, hlinv, hhwi,
              hhwl⟩ hbp
          obtain ⟨⟨hK1b, hK2b, hK3b, hK4b, hK5b, hK6b, hK7b⟩, hA2b, hprevb,
            hlinvb, hhwib, hhwlb⟩ := hLI1
          obtain ⟨htl, hcons, hfin, hclw⟩ := wf_facts hwf
          have hrmem := wf_run_mem hwf _ (List.getElem_mem hrun)
          have hstart_le : layout.runs[st.runIdx].clusterRange.start
              ≤ st.clusterIdx := hK6 _ (List.getElem?_eq_getElem hrun)
          have hcmem : layout.clusters[st.clusterIdx]? = some cluster := by
            obtain ⟨hrel, hlook⟩ := runGet_some hclu
            rwa [Nat.add_sub_cancel' hstart_le] at hlook
          have hadvc : 0 ≤ cluster.advance :=
            (hclw cluster (List.getElem?_mem hcmem)).1
          generalize hswq : (if cluster.info.ligStart = true then
              ligSweep layout layout.runs[st.runIdx]
                (layout.runs[st.runIdx].clusterRange.len + 1)
                st1.clusterIdx cluster.advance
            else (st1.clusterIdx, cluster.advance)) = sw
          obtain ⟨swIdx, adv⟩ := sw
          have hswf : st1.clusterIdx ≤ swIdx ∧
              swIdx < layout.runs[st.runIdx].clusterRange.stop ∧
              0 ≤ adv ∧
              (cluster.info.whitespace.isSpaceOrNbsp = true →
                swIdx = st1.clusterIdx ∧ adv = cluster.advance) := by
            rcases hlig : cluster.info.ligStart with _ | _
            · simp only [hlig, Bool.false_eq_true, if_false,
                Prod.mk.injEq] at hswq
              obtain ⟨hq1, hq2⟩ := hswq
              subst hq1
              subst hq2
              exact ⟨le_rfl, by rw [hci1]; exact hciLt, hadvc,
                fun _ => ⟨rfl, rfl⟩⟩
            · simp only [hlig, eq_self_iff_true, if_true] at hswq
              have hge := @ligSweep_idx_ge layout (layout.runs[st.runIdx])
                (layout.runs[st.runIdx].clusterRange.len + 1)
                st1.clusterIdx cluster.advance
              have hub := @ligSweep_ub layout (layout.runs[st.runIdx])
                (layout.runs[st.runIdx].clusterRange.len + 1)
                st1.clusterIdx cluster.advance
              have hadvle := @ligSweep_adv_ge layout (layout.runs[st.runIdx])
                (fun c hc => (hclw c hc).1)
                (layout.runs[st.runIdx].clusterRange.len + 1)
                st1.clusterIdx cluster.advance
              rw [hswq] at hge hub hadvle
              dsimp only at hge hub hadvle
              refine ⟨hge, ?_, le_trans hadvc hadvle, fun hsp => ?_⟩
              · have h1 : st1.clusterIdx
                    < layout.runs[st.runIdx].clusterRange.stop := by
                  rw [hci1]
                  exact hciLt
                have h2 : layout.runs[st.runIdx].clusterRange.len - 1
                    < layout.runs[st.runIdx].clusterRange.stop := by
                  simp only [NRange.len]
                  omega
                exact lt_of_le_of_lt hub (Nat.max_lt.mpr ⟨h1, h2⟩)
              · exact absurd hlig (by
                  rw [(hclw cluster (List.getElem?_mem hcmem)).2 hsp]
                  simp)
          obtain ⟨hswge, hswlt, hadv0, hspfact⟩ := hswf
          have hswL : swIdx < layout.clusters.length := lt_of_lt_of_le hswlt
            hrmem.2
          have hcige : st.clusterIdx ≤ swIdx := by
            rw [← hci1]
            exact hswge
          dsimp only
          split
          case isTrue hfit =>
            refine ⟨⟨?_, ?_, ?_, ?_, ?_, ?_, ?_⟩, ?_, ?_, hlinvb, hhwib,
              hhwlb⟩
            · dsimp only
              linarith
            · dsimp only
              omega
            · dsimp only
              omega
            · dsimp only
              exact hK4b
            · dsimp only
              omega
            · dsimp only
              intro r hr
              have := hK6b r hr
              omega
            · dsimp only
              intro hxne
              refine ⟨by omega, le_rfl, by omega, by omega⟩
            · dsimp only
              intro hma0
              exact hfit
            · dsimp only
              intro p hp
              obtain ⟨hc, hle, hm⟩ := hprevb p hp
              exact ⟨hc, le_trans hle (by linarith), hm⟩
          case isFalse hnofit =>
            split
            case isTrue hsp =>
              obtain ⟨hsweq, hadveq⟩ := hspfact hsp
              subst hsweq
              subst hadveq
              have hmin1 : min (st1.clusterIdx + 1) layout.clusters.length
                  = st1.clusterIdx + 1 := min_eq_left (by omega)
              split
              case h_1 hcl => trivial
              case h_2 lines' lstate' hcl =>
                split
                case h_1 => trivial
                case h_2 res0 st30 hsn =>
                  have hlinv2 : linesInv layout lines' := by
                    refine commit_linesInv_hang hwf hlinvb hcl cluster ?_
                      hsp ?_ ?_ layout.runs[st.runIdx] ?_ ?_
                    · dsimp only
                      rw [hmin1]
                      simp only [Nat.add_sub_cancel]
                      rw [hci1]
                      exact hcmem
                    · dsimp only
                      intro h0
                      have := hA2b h0
                      linarith
                    · dsimp only
                      omega
                    · dsimp only
                      simp only [Nat.add_sub_cancel]
                      rw [hri1]
                      exact List.getElem?_eq_getElem hrun
                    · dsimp only
                      rw [hmin1]
                      split
                      · omega
                      · have := hstart_le
                        omega
                  refine commitExit_inv hcl hlinv2 hsn rfl rfl rfl ?_ ?_ ?_
                    ?_
                  · dsimp only
                    rw [hmin1]
                  · dsimp only
                    omega
                  · dsimp only
                    omega
                  · dsimp only
                    intro r hr
                    have := hK6b r hr
                    omega
              case h_3 lines' lstate' hcl =>
                exfalso
                have hnil := commitItems_nil hwf (commitLine_false_items hcl)
                simp only [clampState] at hnil
                try dsimp only at hnil
                rw [hmin1] at hnil
                omega
            case isFalse hsp =>
              split
              case h_1 prev hprevEq =>
                obtain ⟨⟨hP1, hP2, hP3, hP4, hP5, hP6, hP7⟩, hPle, hPma⟩ :=
                  hprevb prev hprevEq
                split
                case isTrue hpx0 =>
                  have hmin2 : min (swIdx + 1) layout.clusters.length
                      = swIdx + 1 := min_eq_left (by omega)
                  split
                  case h_1 => trivial
                  case h_2 lines' lstate' hcl =>
                    split
                    case h_1 => trivial
                    case h_2 res0 st30 hsn =>
                      refine commitExit_inv hcl
                        (commit_linesInv_basic hwf hlinvb hcl (Or.inl rfl))
                        hsn rfl rfl rfl ?_ ?_ ?_ ?_
                      · dsimp only
                        rw [hmin2]
                        omega
                      · dsimp only
                        omega
                      · dsimp only
                        omega
                      · dsimp only
                        intro r hr
                        have := hK6b r hr
                        omega
                  case h_3 lines' lstate' hcl =>
                    exfalso
                    have hnil := commitItems_nil hwf
                      (commitLine_false_items hcl)
                    simp only [clampState] at hnil
                    try dsimp only at hnil
                    rw [hmin2] at hnil
                    omega
                case isFalse hpxne =>
                  have hP7x := hP7 hpxne
                  split
                  case h_1 => trivial
                  case h_2 lines' lstate' hcl =>
                    split
                    case h_1 => trivial
                    case h_2 res0 st30 hsn =>
                      refine commitExit_inv hcl
                        (commit_linesInv_basic hwf hlinvb hcl (Or.inr hPma))
                        hsn rfl rfl rfl ?_ ?_ ?_ ?_
                      · dsimp only
                        exact le_trans (min_le_left _ _) hP7x.2.1
                      · dsimp only
                        omega
                      · dsimp only
                        omega
                      · dsimp only
                        exact hP6
                  case h_3 lines' lstate' hcl =>
                    exfalso
                    have hnil := commitItems_nil hwf
                      (commitLine_false_items hcl)
                    simp only [clampState] at hnil
                    try dsimp only at hnil
                    have hminp : min prev.state.clusters.stop
                        layout.clusters.length = prev.state.clusters.stop :=
                      min_eq_left hP7x.2.2.1
                    rw [hminp] at hnil
                    omega
              case h_2 hprevEq =>
                by_cases hx0 : st1.line.x = 0
                case pos =>
                  simp only [if_pos hx0]
                  have hmin2 : min (swIdx + 1) layout.clusters.length
                      = swIdx + 1 := min_eq_left (by omega)
                  split
                  case h_1 => trivial
                  case h_2 lines' lstate' hcl =>
                    split
                    case h_1 => trivial
                    case h_2 res0 st30 hsn =>
                      refine commitExit_inv hcl
                        (commit_linesInv_basic hwf hlinvb hcl (Or.inl rfl))
                        hsn rfl rfl rfl ?_ ?_ ?_ ?_
                      · dsimp only
                        rw [hmin2]
                        omega
                      · dsimp only
                        omega
                      · dsimp only
                        omega
                      · dsimp only
                        intro r hr
                        have := hK6b r hr
                        omega
                  case h_3 lines' lstate' hcl =>
                    exfalso
                    have hnil := commitItems_nil hwf
                      (commitLine_false_items hcl)
                    simp only [clampState] at hnil
                    try dsimp only at hnil
                    rw [hmin2] at hnil
                    omega
                case neg =>
                  simp only [if_neg hx0]
                  have hK7x := hK7b hx0
                  split
                  case h_1 => trivial
                  case h_2 lines' lstate' hcl =>
                    split
                    case h_1 => trivial
                    case h_2 res0 st30 hsn =>
                      refine commitExit_inv hcl
                        (commit_linesInv_basic hwf hlinvb hcl (Or.inr hA2b))
                        hsn rfl rfl rfl ?_ ?_ ?_ ?_
                      · dsimp only
                        exact le_trans (min_le_left _ _) (by omega)
                      · dsimp only
                        omega
                      · dsimp only
                        omega
                      · dsimp only
                        intro r hr
                        have := hK6b r hr
                        omega
                  case h_3 lines' lstate' hcl =>
                    exfalso
                    have hnil := commitItems_nil hwf
                      (commitLine_false_items hcl)
                    simp only [clampState] at hnil
                    try dsimp only at hnil
                    have hminp : min st1.line.clusters.stop
                        layout.clusters.length = st1.line.clusters.stop :=
                      min_eq_left hK7x.2.2.1
                    rw [hminp] at hnil
                    omega

theorem breakLoop_inv {layout : LayoutData} {ma : ℚ} {al : Alignment}
    (hwf : wfLayout layout = true) :
    ∀ {fuel : Nat} {st : BreakerState} {lines : LineLayout} {out : LoopOut},
      loopInv layout ma st lines →
      breakLoop layout ma al fuel st lines = some out →
      loopOutInv layout ma out := by
  intro fuel
  induction fuel with
  | zero => intro st lines out _ h; exact Option.noConfusion h
  | succ fuel ih =>
    intro st lines out hLI h
    unfold breakLoop at h
    split at h
    · exact Option.noConfusion h
    · rename_i out0 hs
      have hstep := breakStep_inv layout ma al st lines hwf hLI
      rw [hs] at hstep
      simp only [Option.some.injEq] at h
      subst h
      cases out0 with
      | committed res st2 lines2 => exact hstep
      | exhausted st2 lines2 =>
        obtain ⟨h1, h2⟩ := hstep
        subst h1
        subst h2
        exact hLI
    · rename_i st2 lines2 hs
      have hstep := breakStep_inv layout ma al st lines hwf hLI
      rw [hs] at hstep
      exact ih hstep h

theorem snapFacts_append {layout : LayoutData} {lines lines2 : LineLayout}
    {ps : BreakerState} {δl : List LineData} {δi : List LineItemData}
    (h : snapFacts layout lines ps)
    (hgl : lines2.lines = lines.lines ++ δl)
    (hgi : lines2.lineItems = lines.lineItems ++ δi) :
    snapFacts layout lines2 ps := by
  obtain ⟨hx0, hcore, hprevF, hile, hlle, hchain⟩ := h
  refine ⟨hx0, hcore, hprevF, ?_, ?_, ?_⟩
  · rw [hgi, List.length_append]
    omega
  · rw [hgl, List.length_append]
    omega
  · rw [hgl, List.take_append_of_le_length hlle]
    exact hchain

theorem finishExhausted_inv {layout : LayoutData} {ma : ℚ} {al : Alignment}
    {br : BreakLines} {pst : Option BreakerState} {st2 : BreakerState}
    {lines2 : LineLayout}
    (hwf : wfLayout layout = true)
    (hLI : loopInv layout ma st2 lines2)
    (hbr : breakerInv layout br)
    (hdone : br.done = false)
    (hsnap : ∀ ps, pst = some ps → snapFacts layout lines2 ps) :
    breakerInv layout (finishExhausted layout ma al br pst st2 lines2).2 := by
  obtain ⟨⟨hK1, hK2, hK3, hK4, hK5, hK6, hK7⟩, hA2, hprev, hlinv, hhwi, hhwl⟩ :=
    hLI
  unfold finishExhausted
  dsimp only
  by_cases hfix : st2.line.runs.stop = 0
  case pos =>
    simp only [if_pos hfix]
    split
    case h_1 => exact hbr
    case h_2 lines3 ls3 hcl =>
      split
      case h_1 => exact hbr
      case h_2 res0 st30 hsn =>
        have hlinv3 : linesInv layout lines3 :=
          commit_linesInv_basic hwf hlinv hcl (Or.inr hA2)
        obtain ⟨l0, δ0, -, hgl, hgi⟩ := commitLine_true hcl
        refine ⟨?_, hlinv3, ?_⟩
        · intro hd
          exact absurd hd (by simp)
        · intro ps hps
          exact snapFacts_append (hsnap ps hps) hgl hgi
    case h_3 lines3 ls3 hcl =>
      obtain ⟨hL3, hS3⟩ := commitLine_false hcl
      subst hL3
      have hx0 : st2.line.x = 0 := by
        by_contra hx0
        obtain ⟨g1, -, -, g4⟩ := hK7 hx0
        omega
      refine ⟨?_, hlinv, ?_⟩
      · intro _
        refine ⟨?_, ⟨?_, ?_, ?_, ?_, ?_, hK6, ?_⟩, ?_, hhwi, hhwl⟩
        · rw [hS3]
          simp only [clampState]
          exact hx0
        · rw [hS3]
          simp only [clampState]
          exact hK1
        · rw [hS3]
          simp only [clampState]
          exact hK2
        · rw [hS3]
          simp only [clampState]
          try dsimp only
          omega
        · rw [hS3]
          simp only [clampState]
          try dsimp only
          exact hK4
        · rw [hS3]
          simp only [clampState]
          try dsimp only
          omega
        · rw [hS3]
          simp only [clampState]
          try dsimp only
          intro hx
          rw [hx0] at hx
          exact absurd rfl hx
        · intro p hp
          dsimp only at hp
          obtain ⟨hc, hle, -⟩ := hprev p hp
          refine ⟨hc, ?_⟩
          rw [hS3]
          simp only [clampState]
          exact hle
      · intro ps hps
        exact hsnap ps hps
  case neg =>
    simp only [if_neg hfix]
    split
    case h_1 => exact hbr
    case h_2 lines3 ls3 hcl =>
      have hlinv3 : linesInv layout lines3 :=
        commit_linesInv_basic hwf hlinv hcl (Or.inr hA2)
      split
      case h_1 => exact hbr
      case h_2 res0 st30 hsn =>
        obtain ⟨l0, δ0, -, hgl, hgi⟩ := commitLine_true hcl
        refine ⟨?_, hlinv3, ?_⟩
        · intro hd
          exact absurd hd (by simp)
        · intro ps hps
          exact snapFacts_append (hsnap ps hps) hgl hgi
    case h_3 lines3 ls3 hcl =>
      obtain ⟨hL3, hS3⟩ := commitLine_false hcl
      subst hL3
      have hx0 : st2.line.x = 0 := by
        by_contra hx0
        obtain ⟨g1, g2, g3, g4⟩ := hK7 hx0
        have hnil := commitItems_nil hwf (commitLine_false_items hcl)
        simp only [clampState] at hnil
        try dsimp only at hnil
        have hmin : min st2.line.clusters.stop layout.clusters.length
            = st2.line.clusters.stop := min_eq_left g3
        omega
      refine ⟨?_, hlinv, ?_⟩
      · intro _
        refine ⟨?_, ⟨?_, ?_, ?_, ?_, ?_, hK6, ?_⟩, ?_, hhwi, hhwl⟩
        · rw [hS3]
          simp only [clampState]
          exact hx0
        · rw [hS3]
          simp only [clampState]
          exact hK1
        · rw [hS3]
          simp only [clampState]
          exact hK2
        · rw [hS3]
          simp only [clampState]
          try dsimp only
          omega
        · rw [hS3]
          simp only [clampState]
          exact hK4
        · rw [hS3]
          simp only [clampState]
          exact hK5
        · rw [hS3]
          simp only [clampState]
          try dsimp only
          intro hx
          rw [hx0] at hx
          exact absurd rfl hx
        · intro p hp
          dsimp only at hp
          obtain ⟨hc, hle, -⟩ := hprev p hp
          refine ⟨hc, ?_⟩
          rw [hS3]
          simp only [clampState]
          exact hle
      · intro ps hps
        exact hsnap ps hps

theorem breakNext_inv {layout : LayoutData} {br : BreakLines} {ma : ℚ}
    {al : Alignment} (hwf : wfLayout layout = true)
    (hinv : breakerInv layout br) :
    breakerInv layout (breakNext layout br ma al).2 := by
  unfold breakNext
  split
  case isTrue => exact hinv
  case isFalse hdone =>
    dsimp only
    obtain ⟨hstate, hlinv, hpst⟩ := hinv
    have hdone2 : br.done = false := by
      simpa using hdone
    obtain ⟨hx0, hcore, hprevF, hhwi, hhwl⟩ := hstate hdone2
    have hLI : loopInv layout ma br.state br.lines := by
      refine ⟨hcore, ?_, ?_, hlinv, hhwi, hhwl⟩
      · intro h0
        rw [hx0]
        exact h0
      · intro p hp
        obtain ⟨hc, hle⟩ := hprevF p hp
        refine ⟨hc, hle, ?_⟩
        intro h0
        have h1 : p.state.x ≤ 0 := hx0 ▸ hle
        have h2 : 0 ≤ p.state.x := hc.1
        linarith
    have hsnap : snapFacts layout br.lines br.state := by
      refine ⟨hx0, hcore, (fun p hp => hprevF p hp), by omega, by omega, ?_⟩
      rw [hhwl, List.take_length, hhwi]
      exact hlinv.1
    split
    case h_1 => exact ⟨hstate, hlinv, hpst⟩
    case h_2 res0 st2 lines2 heq =>
      have hout := breakLoop_inv hwf hLI heq
      obtain ⟨hx2, hcore2, hprev2, hlinv2, hhw2i, hhw2l⟩ := hout
      obtain ⟨⟨δl, δi, hgl, hgi⟩, -, -⟩ := breakLoop_committed heq
      refine ⟨?_, hlinv2, ?_⟩
      · intro _
        refine ⟨hx2, hcore2, ?_, hhw2i, hhw2l⟩
        intro p hp
        rw [hprev2] at hp
        exact Option.noConfusion hp
      · intro ps hps
        simp only [Option.some.injEq] at hps
        subst hps
        exact snapFacts_append hsnap hgl hgi
    case h_3 st2 lines2 heq =>
      have hout := breakLoop_inv hwf hLI heq
      have hle := breakLoop_exhausted heq
      subst hle
      refine finishExhausted_inv hwf hout ⟨hstate, hlinv, hpst⟩ hdone2 ?_
      intro ps hps
      simp only [Option.some.injEq] at hps
      subst hps
      exact hsnap

theorem revert_inv {layout : LayoutData} {br : BreakLines}
    (hinv : breakerInv layout br) :
    breakerInv layout (revert br).2 := by
  unfold revert
  split
  case h_1 ps hps =>
    dsimp only
    obtain ⟨-, hlinv, hpstF⟩ := hinv
    obtain ⟨hx0, hcore, hprevF, hile, hlle, hchain⟩ := hpstF ps hps
    refine ⟨?_, ?_, ?_⟩
    · intro _
      refine ⟨hx0, hcore, hprevF, ?_, ?_⟩
      · dsimp only
        rw [List.length_take]
        omega
      · dsimp only
        rw [List.length_take]
        omega
    · exact linesInv_take hlinv hchain hile
    · intro ps2 hps2
      exact Option.noConfusion hps2
  case h_2 hps => exact hinv

theorem reach_inv {layout : LayoutData} {br : BreakLines}
    (hwf : wfLayout layout = true) (hr : Reach layout br) :
    breakerInv layout br := by
  induction hr with
  | init =>
    refine ⟨?_, ⟨by decide, ?_, ?_⟩, ?_⟩
    · intro _
      refine ⟨rfl, ⟨le_rfl, le_rfl, by decide, le_rfl, by decide, ?_, ?_⟩,
        ?_, rfl, rfl⟩
      · intro r hr
        rw [wf_first_run hwf r hr]
        exact Nat.zero_le _
      · intro hx
        exact absurd rfl hx
      · intro p hp
        exact Option.noConfusion hp
    · intro it hit
      exact absurd hit (List.not_mem_nil it)
    · intro l hl
      exact absurd hl (List.not_mem_nil l)
    · intro ps hps
      exact Option.noConfusion hps
  | step ma al hr ih => exact breakNext_inv hwf ih
  | undo hr ih => exact revert_inv ih

/-- **C3** (amended). For every sequence of `break_next` / `revert` calls on
a well-formed layout, every committed line whose `max_advance` is finite
*and nonnegative*, and whose item slice needs no bidi reordering in
`finish`, satisfies `metrics.advance - trailing_whitespace <= max_advance`
or has `break_reason == Emergency`; the trailing whitespace is the one the
finish pass computes (last cluster of the line's last item), is defined,
and is nonnegative. The original claim fails for finite negative
`max_advance` and for bidi-reordered lines (see the counterexample). -/
theorem C3_width_bound {layout : LayoutData} {br : BreakLines}
    (hwf : wfLayout layout = true) (hr : Reach layout br) :
    ∀ l ∈ br.lines.lines, hasFiniteWidth l.maxAdvance = true →
      0 ≤ l.maxAdvance →
      noReorderLine br.lines.lineItems l →
      l.breakReason = .emergency ∨
        ∃ tw, lineTrailingWhitespace layout.clusters br.lines.lineItems l
            = some tw ∧ 0 ≤ tw ∧ l.metrics.advance - tw ≤ l.maxAdvance := by
  intro l hl hfin hma hnore
  obtain ⟨-, ⟨hchain, hitems, hprop⟩, -⟩ := reach_inv hwf hr
  have hrng := rangesChain_mem hchain l.runRange
    (List.mem_map_of_mem LineData.runRange hl)
  obtain ⟨-, hstart_lt, hstop_le⟩ := hrng
  have hlp := hprop l hl hma
  have hidx : l.runRange.stop - 1 < br.lines.lineItems.length := by omega
  obtain ⟨it, hit⟩ : ∃ it, br.lines.lineItems[l.runRange.stop - 1]? = some it :=
    ⟨_, List.getElem?_eq_getElem hidx⟩
  have hitmem : it ∈ br.lines.lineItems := List.getElem?_mem hit
  obtain ⟨hitne, hitle⟩ := hitems it hitmem
  have hcidx : it.clusterRange.stop - 1 < layout.clusters.length := by omega
  obtain ⟨c, hc⟩ : ∃ c, layout.clusters[it.clusterRange.stop - 1]? = some c :=
    ⟨_, List.getElem?_eq_getElem hcidx⟩
  have hcmem : c ∈ layout.clusters := List.getElem?_mem hc
  obtain ⟨-, -, -, hcl⟩ := wf_facts hwf
  have hadv0 : 0 ≤ c.advance := (hcl c hcmem).1
  have hne : ¬l.runRange.isEmpty = true := by
    simp only [NRange.isEmpty, decide_eq_true_eq]
    omega
  have hne2 : ¬it.clusterRange.isEmpty = true := by
    simp only [NRange.isEmpty, decide_eq_true_eq]
    omega
  have htw : lineTrailingWhitespace layout.clusters br.lines.lineItems l
      = some (if c.info.whitespace.isSpaceOrNbsp then c.advance else 0) := by
    unfold lineTrailingWhitespace
    rw [if_pos hne]
    simp only [hit]
    rw [if_pos hne2]
    simp only [hc]
    by_cases hsp : c.info.whitespace.isSpaceOrNbsp = true
    · rw [if_pos hsp, if_pos hsp]
    · rw [if_neg hsp, if_neg hsp]
  rcases hlp with hem | hfit | ⟨it2, c2, hit2, hc2, hsp2, hbound⟩
  · exact Or.inl hem
  · refine Or.inr ⟨_, htw, ?_, ?_⟩
    · by_cases hsp : c.info.whitespace.isSpaceOrNbsp = true
      · rw [if_pos hsp]
        exact hadv0
      · rw [if_neg hsp]
    · by_cases hsp : c.info.whitespace.isSpaceOrNbsp = true
      · rw [if_pos hsp]
        linarith
      · rw [if_neg hsp]
        linarith
  · rw [hit, Option.some.injEq] at hit2
    subst hit2
    rw [hc, Option.some.injEq] at hc2
    subst hc2
    refine Or.inr ⟨_, htw, ?_, ?_⟩
    · rw [if_pos hsp2]
      exact hadv0
    · rw [if_pos hsp2]
      exact hbound

theorem C3_width_bound_witness :
    wfLayout layoutOneCluster = true ∧
    (∀ l ∈ (breakNext layoutOneCluster initBreaker 5 Alignment.start).2.lines.lines,
      hasFiniteWidth l.maxAdvance = true → 0 ≤ l.maxAdvance →
      noReorderLine
        (breakNext layoutOneCluster initBreaker 5 Alignment.start).2.lines.lineItems l →
      l.breakReason = .emergency ∨
        ∃ tw, lineTrailingWhitespace layoutOneCluster.clusters
            (breakNext layoutOneCluster initBreaker 5 Alignment.start).2.lines.lineItems l
            = some tw ∧ 0 ≤ tw ∧ l.metrics.advance - tw ≤ l.maxAdvance) :=
  ⟨by decide,
    @C3_width_bound layoutOneCluster _ (by decide)
      (Reach.step 5 Alignment.start Reach.init)⟩

theorem reorderPass_pair {a b : LineItemData}
    (ha : a.bidiLevel = 1) (hb : b.bidiLevel = 1) :
    reorderPass 1 [a, b] = [b, a] := by
  unfold reorderPass
  simp [ha, hb, List.takeWhile, List.dropWhile]
  split
  · rfl
  · rename_i y ys hrest
    simp [hb] at hrest

theorem reorderLineItems_pair {a b : LineItemData}
    (ha : a.bidiLevel = 1) (hb : b.bidiLevel = 1) :
    reorderLineItems [a, b] = [b, a] := by
  have h1 : reorderLevels [a, b] = (1, 1) := by
    simp [reorderLevels, ha, hb]
  have h2 : levelsDescending 1 1 = [1] := by decide
  simp only [reorderLineItems, h1, h2, List.foldl]
  exact reorderPass_pair ha hb

/-- **C3** (counterexample to the original claim). Two finished layouts
violate `metrics.advance - trailing_whitespace <= max_advance` on a
non-Emergency line with finite `max_advance`: (a) `layoutC3Reorder`, where
bidi reordering in `finish` moves a non-space item last, so the line's
trailing whitespace is 0 and `12 - 0 > 8`; (b) `layoutC3Neg`, where
`max_advance = -1` is finite, the single space hangs, and `5 - 5 = 0 > -1`. -/
theorem C3_counterexample :
    (c3ReorderFinished.map (fun r => r.2.2.map (fun l =>
        (l.breakReason, l.maxAdvance, l.metrics.advance,
          l.metrics.trailingWhitespace)))
      = some [(BreakReason.regular, 8, 12, 0)]) ∧
    hasFiniteWidth 8 = true ∧ ¬((12 : ℚ) - 0 ≤ 8) ∧
    (c3NegFinished.map (fun r => r.2.2.map (fun l =>
        (l.breakReason, l.maxAdvance, l.metrics.advance,
          l.metrics.trailingWhitespace)))
      = some [(BreakReason.regular, -1, 5, 5)]) ∧
    hasFiniteWidth (-1) = true ∧ ¬((5 : ℚ) - 5 ≤ -1) := by
  have hre : reorderLineItems (([c3I0, c3I1].drop c3L.runRange.start).take
      (c3L.runRange.stop - c3L.runRange.start)) = [c3I1, c3I0] := by
    rw [show (([c3I0, c3I1].drop c3L.runRange.start).take
        (c3L.runRange.stop - c3L.runRange.start)) = [c3I0, c3I1] from rfl]
    exact reorderLineItems_pair (by decide) (by decide)
  have hpass : finishLinePass layoutC3Reorder.clusters [c3I0, c3I1] c3L
      = some (layoutC3Reorder.clusters, [c3I1, c3I0], c3L) := by
    unfold finishLinePass
    dsimp only
    rw [hre]
    decide
  have hitems : (breakNext layoutC3Reorder initBreaker 8
      Alignment.start).2.lines.lineItems = [c3I0, c3I1] := by decide
  have hlines : (breakNext layoutC3Reorder initBreaker 8
      Alignment.start).2.lines.lines = [c3L] := by decide
  have hfin : c3ReorderFinished
      = some (layoutC3Reorder.clusters, [c3I1, c3I0], [c3L]) := by
    unfold c3ReorderFinished
    rw [hitems, hlines]
    unfold finishLines
    rw [hpass]
    decide
  refine ⟨?_, by decide, by decide, by decide, by decide, by decide⟩
  rw [hfin]
  decide

/-- **C4** (evaluation at the failing input). The claim says justification
followed by `unjustify` restores every cluster advance to within
`f32::EPSILON` of its pre-justify value, for all lines including those
with `free_space <= 0`. The code fails this: `finish` justifies only under
the `free_space > 0` guard, while `unjustify` reverses the adjustment
without that guard, so on a justified emergency line with negative free
space (advance 26 against `max_advance = 10`, one counted space,
`free_space = -16`) nothing is added but `-(-16)/1 = 16` is later
subtracted-with-flipped-sign: the space cluster's advance moves from 2 to
18, an error of 16, vastly above epsilon. -/
theorem C4_justify_unjustify_roundtrip_fails :
    (justifyBugBroken.lines.lines.map LineData.breakReason
        = [BreakReason.emergency] ∧
      justifyBugBroken.lines.lines.map LineData.alignment
        = [Alignment.justified] ∧
      justifyBugBroken.lines.lines.map LineData.numSpaces = [1] ∧
      justifyBugBroken.lines.lines.map (fun l => l.metrics.advance) = [26] ∧
      justifyBugBroken.lines.lines.map LineData.maxAdvance = [10]) ∧
    (justifyBugFinished.bind (fun out => out.1[1]?)).map ClusterData.advance
      = some 2 ∧
    (justifyBugAfter.bind (fun cs => cs[1]?)).map ClusterData.advance
      = some 18 ∧
    F32_EPSILON < 18 - 2 := by
  decide

end Parley